import Mathlib

/-!
Verification of the dep-map core: a shallow embedding of the APKBUILD
recipe parser (parser.py) and the dependency graph engine (graph.py),
together with theorems settling the specification claims.

Strings are modelled as Lean String values; scanning primitives work on
List Char (the contents of the corresponding Python str).  Python dicts
are modelled as association lists with overwrite-on-set semantics, so a
key occurs at most once and lookups are unambiguous.
-/

namespace DepMap

/-! ## Basic character and string utilities -/

/-- Python whitespace class (the characters str.strip removes and the
regex class matches for ASCII input). -/
def isPySpace (c : Char) : Bool :=
  c = ' ' || c = '\t' || c = '\n' || c = '\r' || c = '\x0b' || c = '\x0c'

/-- Word character, the ASCII reading of the regex word class. -/
def isWordChar (c : Char) : Bool :=
  c.isAlphanum || c = '_'

/-- Strip leading characters satisfying p. -/
def dropWhileL (p : Char → Bool) : List Char → List Char
  | [] => []
  | c :: cs => if p c then dropWhileL p cs else c :: cs

/-- Take the longest leading run of characters satisfying p. -/
def takeWhileL (p : Char → Bool) : List Char → List Char
  | [] => []
  | c :: cs => if p c then c :: takeWhileL p cs else []

/-- Python str.strip() on a character list: remove leading and trailing
whitespace. -/
def pyStripL (s : List Char) : List Char :=
  ((dropWhileL isPySpace ((dropWhileL isPySpace s).reverse)).reverse)

/-- Python str.strip() on a String. -/
def pyStrip (s : String) : String :=
  ⟨pyStripL s.data⟩

/-- Python str.strip(chars) on a character list: remove every leading and
trailing character belonging to the given set. -/
def stripCharsL (cs : List Char) (s : List Char) : List Char :=
  ((dropWhileL (fun c => cs.contains c)
      ((dropWhileL (fun c => cs.contains c) s).reverse)).reverse)

/-- Python str.strip(chars) on a String. -/
def stripChars (cs : List Char) (s : String) : String :=
  ⟨stripCharsL cs s.data⟩

/-- Test whether pat occurs as a contiguous sublist of s (Python
"pat in s"). -/
def containsSub (s pat : List Char) : Bool :=
  match s with
  | [] => pat.isEmpty
  | _ :: rest => pat.isPrefixOf s || containsSub rest pat

/-- Python "pat in s" on Strings. -/
def strContains (s pat : String) : Bool :=
  containsSub s.data pat.data

/-- Replace every non-overlapping occurrence of pat (nonempty) by rep,
scanning left to right: Python str.replace. -/
def replaceSubAux (pat rep : List Char) : Nat → List Char → List Char
  | 0, s => s
  | _ + 1, [] => []
  | fuel + 1, c :: rest =>
    if pat ≠ [] ∧ pat.isPrefixOf (c :: rest) then
      rep ++ replaceSubAux pat rep fuel ((c :: rest).drop pat.length)
    else
      c :: replaceSubAux pat rep fuel rest

/-- Python str.replace on Strings (pattern assumed nonempty, as in all
call sites). -/
def replaceSub (s pat rep : String) : String :=
  ⟨replaceSubAux pat.data rep.data s.data.length s.data⟩

/-- Membership of a character in a string (Python "c in s"). -/
def charIn (c : Char) (s : String) : Bool :=
  s.data.contains c

/-- Split on a single character, keeping empty fields: Python
str.split(sep) for a one-character separator. -/
def splitOnChar (sep : Char) (s : List Char) : List (List Char) :=
  match s with
  | [] => [[]]
  | c :: rest =>
    let r := splitOnChar sep rest
    if c = sep then [] :: r
    else
      match r with
      | [] => [[c]]
      | f :: fs => (c :: f) :: fs

/-- Python str.split('\n') giving the physical lines of a text. -/
def splitLines (s : String) : List String :=
  (splitOnChar '\n' s.data).map (fun l => ⟨l⟩)

/-- Python str.split() with no arguments: split on whitespace runs,
discarding empty fields.  The first argument accumulates the current
token in reverse. -/
def splitWsGo (cur : List Char) : List Char → List String
  | [] => if cur.isEmpty then [] else [⟨cur.reverse⟩]
  | c :: rest =>
    if isPySpace c then
      if cur.isEmpty then splitWsGo [] rest
      else ⟨cur.reverse⟩ :: splitWsGo [] rest
    else splitWsGo (c :: cur) rest

/-- Python str.split() on a String. -/
def splitWs (s : String) : List String :=
  splitWsGo [] s.data

/-- Prefix of s strictly before the first occurrence of character sep;
the whole of s when sep does not occur (s.split(sep)[0] in Python). -/
def takeBeforeChar (sep : Char) (s : List Char) : List Char :=
  takeWhileL (fun c => c ≠ sep) s

/-- Prefix of s strictly before the first occurrence of the substring
pat, or all of s when pat does not occur. -/
def takeBeforeSub (pat : List Char) : List Char → List Char
  | [] => []
  | c :: rest =>
    if pat.isPrefixOf (c :: rest) then []
    else c :: takeBeforeSub pat rest

/-! ## Python dict as an association list (set overwrites in place) -/

/-- Lookup in a Python dict model. -/
def dictGet (d : List (String × String)) (k : String) : Option String :=
  match d.find? (fun p => p.1 = k) with
  | some p => some p.2
  | none => none

/-- Assignment in a Python dict model: overwrite the existing binding in
place, otherwise append. -/
def dictSet (d : List (String × String)) (k v : String) : List (String × String) :=
  if d.any (fun p => p.1 = k) then
    d.map (fun p => if p.1 = k then (k, v) else p)
  else
    d ++ [(k, v)]

/-- Lookup in a dict with Nat values (the arithmetic variable table). -/
def dictGetN (d : List (String × Nat)) (k : String) : Option Nat :=
  match d.find? (fun p => p.1 = k) with
  | some p => some p.2
  | none => none

/-- Assignment in a dict with Nat values. -/
def dictSetN (d : List (String × Nat)) (k : String) (v : Nat) : List (String × Nat) :=
  if d.any (fun p => p.1 = k) then
    d.map (fun p => if p.1 = k then (k, v) else p)
  else
    d ++ [(k, v)]

/-! ## Lexicographic string order (Python string comparison) and sorting -/

/-- Lexicographic comparison of character lists by code point, the order
Python sorted() uses on strings. -/
def listLe : List Char → List Char → Bool
  | [], _ => true
  | _ :: _, [] => false
  | a :: as, b :: bs =>
    if a.toNat = b.toNat then listLe as bs else decide (a.toNat < b.toNat)

/-- Lexicographic order on strings as a proposition. -/
def strLE (a b : String) : Prop :=
  listLe a.data b.data = true

instance : DecidableRel strLE := fun a b => by
  unfold strLE; infer_instance

/-- Python sorted() on a list of strings. -/
def sortPy (l : List String) : List String :=
  List.insertionSort strLE l

/-- Python sorted(set(l)) on a list of strings. -/
def sortedSet (l : List String) : List String :=
  sortPy l.dedup

/-! ## BashVariableContext (parser.py, class BashVariableContext) -/

/-- Mutable bash variable store.  The underlying dict of variables is the
only mutable state; the preset defaults are a fixed table. -/
structure BashCtx where
  vars : List (String × String)
deriving Repr, DecidableEq

/-- Preset environment variables treated as empty (native build). -/
def ctxDefaults : List (String × String) :=
  [("CHOST", ""), ("CTARGET", ""), ("CBUILD", ""), ("CARCH", ""),
   ("CTARGET_ARCH", ""), ("BOOTSTRAP", ""), ("CROSS_COMPILE", "")]

/-- BashVariableContext.get with an explicit default. -/
def ctxGetD (ctx : BashCtx) (name default : String) : String :=
  match dictGet ctx.vars name with
  | some v => v
  | none => (dictGet ctxDefaults name).getD default

/-- BashVariableContext.get with the empty-string default. -/
def ctxGet (ctx : BashCtx) (name : String) : String :=
  ctxGetD ctx name ""

/-- BashVariableContext.set. -/
def ctxSet (ctx : BashCtx) (name v : String) : BashCtx :=
  ⟨dictSet ctx.vars name v⟩

/-- Fresh context (BashVariableContext.__init__). -/
def ctxEmpty : BashCtx := ⟨[]⟩

/-! Shell glob patterns, as the source converts them to regexes: a star
becomes dot-star, a question mark becomes dot, all other characters
match themselves. -/

/-- Token of a converted glob pattern. -/
inductive GlobTok where
  | star
  | anyc
  | lit (c : Char)
deriving Repr, DecidableEq

/-- Convert a raw shell pattern to glob tokens (the replace calls in
the source). -/
def globOfPat : List Char → List GlobTok
  | [] => []
  | c :: r =>
    (if c = '*' then GlobTok.star else if c = '?' then GlobTok.anyc else GlobTok.lit c)
      :: globOfPat r

/-- Full match of a glob token list against a character list. -/
def globMatch : List GlobTok → List Char → Bool
  | [], s => s.isEmpty
  | GlobTok.star :: p, s =>
    globMatch p s ||
      (match s with
       | [] => false
       | _ :: r => globMatch (GlobTok.star :: p) r)
  | GlobTok.anyc :: p, s =>
    (match s with
     | [] => false
     | _ :: r => globMatch p r)
  | GlobTok.lit c :: p, s =>
    (match s with
     | [] => false
     | d :: r => c = d && globMatch p r)
termination_by p s => (s.length, p.length)

/-- Glob-semantics suffix strip: search for the end-anchored converted
pattern and cut the value at the leftmost match start; for an
end-anchored leftmost search the greedy and lazy variants match the
same span, so the longest flag cannot affect the result. -/
def globStripSuffix (value pat : List Char) (_longest : Bool) : List Char :=
  let g := globOfPat pat
  match (List.range (value.length + 1)).find? (fun i => globMatch g (value.drop i)) with
  | some i => value.take i
  | none => value

/-- Glob-semantics prefix strip: match the converted pattern anchored at
the start of the value and drop the matched span; the greedy variant
takes the longest matching span, the lazy variant the shortest. -/
def globStripPre (value pat : List Char) (longest : Bool) : List Char :=
  let g := globOfPat pat
  let cands := (List.range (value.length + 1)).filter (fun j => globMatch g (value.take j))
  match (if longest then cands.getLast? else cands.head?) with
  | some j => value.drop j
  | none => value

/-- Pattern characters whose converted form stays an ordinary regex
character: star and question mark are translated by the source, and any
character that is not a regex metacharacter matches itself.  A pattern
inside this fragment compiles and behaves exactly like the glob it came
from; outside it the source hands unescaped metacharacters to the regex
engine. -/
def globFragmentChar (c : Char) : Bool :=
  c = '*' || c = '?' ||
    !(c = '.' || c = '^' || c = '$' || c = '+' || c = '\x7b' || c = '\x7d' ||
      c = '[' || c = ']' || c = '\\' || c = '|' || c = '(' || c = ')')

/-- Whole pattern inside the pure glob fragment. -/
def globFragmentPat (pat : List Char) : Bool :=
  pat.all globFragmentChar

/-- Well-nestedness of group parentheses, tracked with the current
nesting depth.  The glob conversion leaves parentheses untouched, so a
pattern whose parentheses are not well nested — with no character class
and no escape that could neutralize them — always makes the dynamically
built regex fail to compile. -/
def parensBalanced : List Char → Nat → Bool
  | [], 0 => true
  | [], _ + 1 => false
  | '(' :: r, d => parensBalanced r (d + 1)
  | ')' :: r, d =>
    (match d with
     | 0 => false
     | d + 1 => parensBalanced r d)
  | _ :: r, d => parensBalanced r d

/-- Outcome of a computation that can raise an exception in the source,
with a third state for behavior the embedding leaves undetermined. -/
inductive EvalOut (α : Type) where
  | done (a : α)
  | raised
  | undet
deriving Repr, DecidableEq

/-- Sequencing of fallible outcomes: raising and undetermined states
propagate. -/
def evalBind {α β : Type} (x : EvalOut α) (f : α → EvalOut β) : EvalOut β :=
  match x with
  | EvalOut.done a => f a
  | EvalOut.raised => EvalOut.raised
  | EvalOut.undet => EvalOut.undet

/-- BashVariableContext._expand_remove_suffix, faithfully fallible.  The
source interpolates the raw pattern unescaped into a dynamically
compiled end-anchored regex with no exception handler.  For an empty
value or pattern it returns early without building a regex.  Inside the
glob fragment the converted regex is equivalent to the glob and the
strip is computed exactly.  A pattern with unbalanced group parentheses
(and no character class or escape) is an invalid regex, so the search
call raises and the error propagates out of expansion.  Any other
pattern leaves the modelled fragment — the engine may apply regex
rather than glob semantics or raise for another reason — and the
outcome is recorded as undetermined. -/
def expandRemoveSufE (ctx : BashCtx) (varname : String) (pat : List Char)
    (longest : Bool) : EvalOut (List Char) :=
  let value := (ctxGet ctx varname).data
  if value = [] ∨ pat = [] then EvalOut.done value
  else if globFragmentPat pat then EvalOut.done (globStripSuffix value pat longest)
  else if !pat.contains '[' && !pat.contains '\\' && !parensBalanced pat 0 then
    EvalOut.raised
  else EvalOut.undet

/-- BashVariableContext._expand_remove_prefix, faithfully fallible, with
the same case split as the suffix form over a start-anchored regex. -/
def expandRemovePreE (ctx : BashCtx) (varname : String) (pat : List Char)
    (longest : Bool) : EvalOut (List Char) :=
  let value := (ctxGet ctx varname).data
  if value = [] ∨ pat = [] then EvalOut.done value
  else if globFragmentPat pat then EvalOut.done (globStripPre value pat longest)
  else if !pat.contains '[' && !pat.contains '\\' && !parensBalanced pat 0 then
    EvalOut.raised
  else EvalOut.undet

/-- Total restriction of the suffix strip, used by the total expansion
pipeline that drives the recipe-parsing embedding: it agrees with the
fallible embedding wherever that one determines a value, and outside
the glob fragment (where the source would raise or apply regex
semantics) it falls back to glob semantics.  No recipe-parsing theorem
in this development evaluates expansion at a strip form, so the
fallback is unreachable there; the expansion-contract claim is settled
against the fallible embedding. -/
def expandRemoveSuf (ctx : BashCtx) (varname : String) (pat : List Char)
    (longest : Bool) : List Char :=
  match expandRemoveSufE ctx varname pat longest with
  | EvalOut.done v => v
  | _ => globStripSuffix (ctxGet ctx varname).data pat longest

/-- Total restriction of the prefix strip, mirroring the suffix one. -/
def expandRemovePre (ctx : BashCtx) (varname : String) (pat : List Char)
    (longest : Bool) : List Char :=
  match expandRemovePreE ctx varname pat longest with
  | EvalOut.done v => v
  | _ => globStripPre (ctxGet ctx varname).data pat longest

/-! Regex-substitution passes of BashVariableContext.expand.  Each pass
is a left-to-right scan replacing non-overlapping matches, exactly the
semantics of re.sub; a pass's matcher returns the replacement text, the
unconsumed rest of the input and the (possibly updated) context. -/

/-- Match a dollar-brace form with the given separator between the
variable name and the pattern part: dollar, open brace, a nonempty run
of word characters, the separator, a run of non-close-brace characters,
a close brace.  Returns the name, the pattern part and the rest. -/
def matchDollarBrace (sep : List Char) (s : List Char) :
    Option (String × List Char × List Char) :=
  match s with
  | '$' :: b :: rest =>
    if b = '\x7b' then
      let name := takeWhileL isWordChar rest
      if name = [] then none
      else
        let r1 := rest.drop name.length
        if sep.isPrefixOf r1 then
          let r2 := r1.drop sep.length
          let pat := takeWhileL (fun c => c ≠ '\x7d') r2
          match r2.drop pat.length with
          | '\x7d' :: r3 => some (⟨name⟩, pat, r3)
          | _ => none
        else none
    else none
  | _ => none

/-- Match the plain dollar-brace variable form: dollar, open brace, a
nonempty run of word characters, a close brace. -/
def matchBraceVar (s : List Char) : Option (String × List Char) :=
  match s with
  | '$' :: b :: rest =>
    if b = '\x7b' then
      let name := takeWhileL isWordChar rest
      if name = [] then none
      else
        match rest.drop name.length with
        | '\x7d' :: r1 => some (⟨name⟩, r1)
        | _ => none
    else none
  | _ => none

/-- Match the bare dollar-variable form: dollar, a name starting with a
letter or underscore followed by word characters (maximal), not followed
by an open parenthesis.  After the maximal run the next character can
never be a word character, so the negative lookahead of the source only
rejects a following open parenthesis. -/
def matchDollarVar (s : List Char) : Option (String × List Char) :=
  match s with
  | '$' :: c :: rest =>
    if c.isAlpha || c = '_' then
      let tail := takeWhileL isWordChar rest
      let r1 := rest.drop tail.length
      match r1 with
      | '(' :: _ => none
      | _ => some (⟨c :: tail⟩, r1)
    else none
  | _ => none

/-- One try-function per substitution pass. -/
def PassFn : Type :=
  BashCtx → List Char → Option (List Char × List Char × BashCtx)

/-- Suffix strip, longest (double percent). -/
def trySufLong : PassFn := fun ctx s =>
  (matchDollarBrace ['%', '%'] s).map fun (n, pat, rest) =>
    (expandRemoveSuf ctx n pat true, rest, ctx)

/-- Suffix strip, shortest (single percent). -/
def trySufShort : PassFn := fun ctx s =>
  (matchDollarBrace ['%'] s).map fun (n, pat, rest) =>
    (expandRemoveSuf ctx n pat false, rest, ctx)

/-- Prefix strip, longest (double hash). -/
def tryPreLong : PassFn := fun ctx s =>
  (matchDollarBrace ['#', '#'] s).map fun (n, pat, rest) =>
    (expandRemovePre ctx n pat true, rest, ctx)

/-- Prefix strip, shortest (single hash). -/
def tryPreShort : PassFn := fun ctx s =>
  (matchDollarBrace ['#'] s).map fun (n, pat, rest) =>
    (expandRemovePre ctx n pat false, rest, ctx)

/-- Default-value form (colon dash): substitute the default when the
variable is unset or empty, never mutating the context. -/
def tryDefaultVal : PassFn := fun ctx s =>
  (matchDollarBrace [':', '-'] s).map fun (n, pat, rest) =>
    (let v := ctxGet ctx n
     if v = "" then pat else v.data, rest, ctx)

/-- Assign-default form (colon equals): BashVariableContext
._expand_assign_default, which assigns the default into the context when
the variable is unset or empty. -/
def tryAssignDefault : PassFn := fun ctx s =>
  (matchDollarBrace [':', '='] s).map fun (n, pat, rest) =>
    (let v := ctxGet ctx n
     if v = "" then (pat, rest, ctxSet ctx n ⟨pat⟩)
     else (v.data, rest, ctx))

/-- Brace variable reference. -/
def tryBraceVar : PassFn := fun ctx s =>
  (matchBraceVar s).map fun (n, rest) => ((ctxGet ctx n).data, rest, ctx)

/-- Bare dollar variable reference. -/
def tryDollarVar : PassFn := fun ctx s =>
  (matchDollarVar s).map fun (n, rest) => ((ctxGet ctx n).data, rest, ctx)

/-- Left-to-right scan applying a pass's matcher at every position
(re.sub).  Every matcher consumes at least one character on success, so
fuel equal to the input length suffices for a complete scan. -/
def subPassAux (tryM : PassFn) : Nat → BashCtx → List Char → List Char × BashCtx
  | 0, ctx, s => (s, ctx)
  | _ + 1, ctx, [] => ([], ctx)
  | fuel + 1, ctx, c :: rest =>
    match tryM ctx (c :: rest) with
    | some (rep, remaining, ctx') =>
      let (out, ctx'') := subPassAux tryM fuel ctx' remaining
      (rep ++ out, ctx'')
    | none =>
      let (out, ctx') := subPassAux tryM fuel ctx rest
      (c :: out, ctx')

/-- Run one substitution pass over a whole value. -/
def runPass (tryM : PassFn) (ctx : BashCtx) (s : List Char) : List Char × BashCtx :=
  subPassAux tryM s.length ctx s

/-- BashVariableContext.expand on character lists: the eight passes in
source order.  Only the assign-default pass can update the context. -/
def expandL (ctx : BashCtx) (s : List Char) : List Char × BashCtx :=
  if s = [] then (s, ctx)
  else
    let (s1, c1) := runPass trySufLong ctx s
    let (s2, c2) := runPass trySufShort c1 s1
    let (s3, c3) := runPass tryPreLong c2 s2
    let (s4, c4) := runPass tryPreShort c3 s3
    let (s5, c5) := runPass tryDefaultVal c4 s4
    let (s6, c6) := runPass tryAssignDefault c5 s5
    let (s7, c7) := runPass tryBraceVar c6 s6
    let (s8, c8) := runPass tryDollarVar c7 s7
    (s8, c8)

/-- BashVariableContext.expand on Strings. -/
def expand (ctx : BashCtx) (v : String) : String × BashCtx :=
  let (out, ctx') := expandL ctx v.data
  (⟨out⟩, ctx')

/-! ## Fallible expansion pipeline

The four strip passes call re.search on a regex built from the raw
unescaped pattern, so they can raise re.error; the error propagates out
of expand, which has no handler.  The pipeline below threads that
possibility through the same eight passes. -/

/-- Outcome of one pass matcher at a position. -/
inductive PassOut where
  | noMatch
  | matched (rep rest : List Char) (ctx : BashCtx)
  | raised
  | undet
deriving Repr, DecidableEq

/-- A pass matcher that can raise. -/
def PassFnE : Type :=
  BashCtx → List Char → PassOut

/-- The passes that never build a regex from user text, lifted. -/
def liftPass (tryM : PassFn) : PassFnE := fun ctx s =>
  match tryM ctx s with
  | some (rep, rest, ctx') => PassOut.matched rep rest ctx'
  | none => PassOut.noMatch

/-- Suffix strip, longest (double percent), fallible. -/
def trySufLongE : PassFnE := fun ctx s =>
  match matchDollarBrace ['%', '%'] s with
  | some (n, pat, rest) =>
    match expandRemoveSufE ctx n pat true with
    | EvalOut.done rep => PassOut.matched rep rest ctx
    | EvalOut.raised => PassOut.raised
    | EvalOut.undet => PassOut.undet
  | none => PassOut.noMatch

/-- Suffix strip, shortest (single percent), fallible. -/
def trySufShortE : PassFnE := fun ctx s =>
  match matchDollarBrace ['%'] s with
  | some (n, pat, rest) =>
    match expandRemoveSufE ctx n pat false with
    | EvalOut.done rep => PassOut.matched rep rest ctx
    | EvalOut.raised => PassOut.raised
    | EvalOut.undet => PassOut.undet
  | none => PassOut.noMatch

/-- Prefix strip, longest (double hash), fallible. -/
def tryPreLongE : PassFnE := fun ctx s =>
  match matchDollarBrace ['#', '#'] s with
  | some (n, pat, rest) =>
    match expandRemovePreE ctx n pat true with
    | EvalOut.done rep => PassOut.matched rep rest ctx
    | EvalOut.raised => PassOut.raised
    | EvalOut.undet => PassOut.undet
  | none => PassOut.noMatch

/-- Prefix strip, shortest (single hash), fallible. -/
def tryPreShortE : PassFnE := fun ctx s =>
  match matchDollarBrace ['#'] s with
  | some (n, pat, rest) =>
    match expandRemovePreE ctx n pat false with
    | EvalOut.done rep => PassOut.matched rep rest ctx
    | EvalOut.raised => PassOut.raised
    | EvalOut.undet => PassOut.undet
  | none => PassOut.noMatch

/-- Left-to-right scan applying a fallible pass at every position, with
an exception anywhere aborting the whole pass. -/
def subPassAuxE (tryM : PassFnE) :
    Nat → BashCtx → List Char → EvalOut (List Char × BashCtx)
  | 0, ctx, s => EvalOut.done (s, ctx)
  | _ + 1, ctx, [] => EvalOut.done ([], ctx)
  | fuel + 1, ctx, c :: rest =>
    match tryM ctx (c :: rest) with
    | PassOut.matched rep remaining ctx' =>
      evalBind (subPassAuxE tryM fuel ctx' remaining) fun (out, ctx'') =>
        EvalOut.done (rep ++ out, ctx'')
    | PassOut.noMatch =>
      evalBind (subPassAuxE tryM fuel ctx rest) fun (out, ctx') =>
        EvalOut.done (c :: out, ctx')
    | PassOut.raised => EvalOut.raised
    | PassOut.undet => EvalOut.undet

/-- Run one fallible substitution pass over a whole value. -/
def runPassE (tryM : PassFnE) (ctx : BashCtx) (s : List Char) :
    EvalOut (List Char × BashCtx) :=
  subPassAuxE tryM s.length ctx s

/-- BashVariableContext.expand on character lists with the exception
path: the eight passes in source order, an exception in any pass
propagating out. -/
def expandLE (ctx : BashCtx) (s : List Char) : EvalOut (List Char × BashCtx) :=
  if s = [] then EvalOut.done (s, ctx)
  else
    evalBind (runPassE trySufLongE ctx s) fun (s1, c1) =>
    evalBind (runPassE trySufShortE c1 s1) fun (s2, c2) =>
    evalBind (runPassE tryPreLongE c2 s2) fun (s3, c3) =>
    evalBind (runPassE tryPreShortE c3 s3) fun (s4, c4) =>
    evalBind (runPassE (liftPass tryDefaultVal) c4 s4) fun (s5, c5) =>
    evalBind (runPassE (liftPass tryAssignDefault) c5 s5) fun (s6, c6) =>
    evalBind (runPassE (liftPass tryBraceVar) c6 s6) fun (s7, c7) =>
    evalBind (runPassE (liftPass tryDollarVar) c7 s7) fun (s8, c8) =>
    EvalOut.done (s8, c8)

/-- BashVariableContext.expand on Strings with the exception path. -/
def expandE (ctx : BashCtx) (v : String) : EvalOut (String × BashCtx) :=
  evalBind (expandLE ctx v.data) fun (out, ctx') => EvalOut.done (⟨out⟩, ctx')

/-! ## PackageInfo (parser.py, dataclass PackageInfo) -/

/-- Structured package record produced by the parser. -/
structure PackageInfo where
  name : String
  version : String := ""
  release : Int := 0
  description : String := ""
  url : String := ""
  license : String := ""
  arch : String := "all"
  depends : List String := []
  makedepends : List String := []
  makedepends_build : List String := []
  makedepends_host : List String := []
  checkdepends : List String := []
  provides : List String := []
  replaces : List String := []
  subpackages : List String := []
  maintainer : String := ""
  contributors : List String := []
  repo : String := ""
  filepath : String := ""
deriving Repr, DecidableEq

/-- PackageInfo.build_depends: the union of the three make-dependency
lists.  The source exposes it as a Python set; graph construction only
tests membership and tags every resulting edge with the same kind, so
the set is determinized here as the concatenation with duplicates
removed, preserving first occurrences. -/
def buildDependsList (pkg : PackageInfo) : List String :=
  (pkg.makedepends ++ pkg.makedepends_build ++ pkg.makedepends_host).eraseDups

/-! ## Pass 1: variable discovery (APKBUILDParser._parse_variables) -/

/-- Match an assignment line: an identifier made of a leading letter or
underscore and word characters, an equals sign, then the raw value
(the anchored identifier-equals-anything pattern of the source). -/
def assignMatch (line : List Char) : Option (String × String) :=
  match line with
  | c :: rest =>
    if c.isAlpha || c = '_' then
      let tail := takeWhileL isWordChar rest
      match rest.drop tail.length with
      | '=' :: value => some (⟨c :: tail⟩, ⟨value⟩)
      | _ => none
    else none
  | [] => none

/-- Strip one layer of matching surrounding double or single quotes, as
the assignment handler does. -/
def stripOneQuoteLayer (v : List Char) : List Char :=
  if v ≠ [] ∧ v.head? = some '"' ∧ v.getLast? = some '"' then
    (v.drop 1).dropLast
  else if v ≠ [] ∧ v.head? = some '\'' ∧ v.getLast? = some '\'' then
    (v.drop 1).dropLast
  else v

/-- Match the conditional-assignment form: an opening bracket, any test
text up to a closing bracket, double ampersand, an assignment whose
value is a nonempty run without whitespace or pipe, then optionally
double pipe and a second assignment taking the rest of the line.
Backtracking tries closing-bracket positions from the right, as the
greedy dot-star of the source does.  Returns the else-branch assignment
when present. -/
def condMatchAfterBracket (after : List Char) : Option (Option (String × String)) :=
  let r1 := dropWhileL isPySpace after
  match r1 with
  | '&' :: '&' :: r2 =>
    let r3 := dropWhileL isPySpace r2
    (match r3 with
     | c :: rest =>
       if c.isAlpha || c = '_' then
         let tail := takeWhileL isWordChar rest
         match rest.drop tail.length with
         | '=' :: vrest =>
           -- the first assigned value is the maximal run without
           -- whitespace or pipe and must be nonempty
           let v1 := takeWhileL (fun d => !isPySpace d && d ≠ '|') vrest
           if v1 = [] then none
           else
             let r4 := vrest.drop v1.length
             let r5 := dropWhileL isPySpace r4
             match r5 with
             | '|' :: '|' :: r6 =>
               let r7 := dropWhileL isPySpace r6
               (match assignMatch r7 with
                | some (n2, v2) => if v2 = "" then some none else some (some (n2, v2))
                | none => some none)
             | _ => some none
         | _ => none
       else none
     | [] => none)
  | _ => none

/-- Candidate split positions for the closing bracket, rightmost first. -/
def condMatch (line : List Char) : Option (Option (String × String)) :=
  match line with
  | '[' :: rest =>
    (List.range rest.length).reverse.findSome? (fun i =>
      if rest.get? i = some ']' then condMatchAfterBracket (rest.drop (i + 1))
      else none)
  | _ => none

/-- Match the no-op default-setting line: colon, spaces, quote, dollar,
open brace, identifier, colon equals, default characters, close brace,
quote. -/
def defaultMatch (line : List Char) : Option (String × String) :=
  match line with
  | ':' :: r0 =>
    let r1 := dropWhileL isPySpace r0
    match r1 with
    | '"' :: '$' :: b :: r2 =>
      if b = '\x7b' then
        match r2 with
        | c :: r3 =>
          if c.isAlpha || c = '_' then
            let tail := takeWhileL isWordChar r3
            match r3.drop tail.length with
            | ':' :: '=' :: r4 =>
              let dflt := takeWhileL (fun d => d ≠ '\x7d') r4
              match r4.drop dflt.length with
              | '\x7d' :: '"' :: _ => some (⟨c :: tail⟩, ⟨dflt⟩)
              | _ => none
            | _ => none
          else none
        | [] => none
      else none
    | _ => none
  | _ => none

/-- State of pass 1: the variable context and the first recorded package
name (None until a usable pkgname assignment is seen). -/
structure ParseVarsState where
  ctx : BashCtx
  firstPkgname : Option String
deriving Repr, DecidableEq

/-- Process one (already split) physical line of pass 1. -/
def parseVarsLine (st : ParseVarsState) (rawLine : String) : ParseVarsState :=
  let line := pyStripL rawLine.data
  if line = [] ∨ line.head? = some '#' then st
  else
    match assignMatch line with
    | some (varname, rawValue) =>
      let value := pyStripL rawValue.data
      let value := stripOneQuoteLayer value
      let (expandedValue, ctx1) := expandL st.ctx value
      let firstPkgname :=
        if varname = "pkgname" ∧ st.firstPkgname = none then
          if !value.contains '$' then some (⟨expandedValue⟩ : String)
          else if expandedValue ≠ [] ∧ !expandedValue.contains '$' then
            some (⟨expandedValue⟩ : String)
          else none
        else st.firstPkgname
      { ctx := ctxSet ctx1 varname ⟨expandedValue⟩, firstPkgname := firstPkgname }
    | none =>
      match condMatch line with
      | some branch =>
        match branch with
        | some (varname, v2) =>
          let v := stripCharsL ['"', '\''] (pyStripL v2.data)
          let (ev, ctx1) := expandL st.ctx v
          { st with ctx := ctxSet ctx1 varname ⟨ev⟩ }
        | none => st
      | none =>
        match defaultMatch line with
        | some (varname, dflt) =>
          if ctxGet st.ctx varname = "" then
            { st with ctx := ctxSet st.ctx varname dflt }
          else st
        | none => st

/-- APKBUILDParser._parse_variables over the whole content. -/
def parseVariables (content : String) : ParseVarsState :=
  (splitLines content).foldl parseVarsLine ⟨ctxEmpty, none⟩

/-! ## Multi-line variable extraction
(APKBUILDParser._extract_multiline_var) -/

/-- Scan the remaining lines while inside a quoted multi-line value. -/
def multilineCollect (quoteChar : Char) (acc : List String) : List String → String
  | [] => " ".intercalate acc.reverse
  | line :: rest =>
    if (line.data.contains quoteChar : Bool) then
      " ".intercalate ((⟨takeWhileL (fun c => c ≠ quoteChar) line.data⟩ : String) :: acc).reverse
    else multilineCollect quoteChar ((line : String) :: acc) rest

/-- Scan lines for the start of the variable definition. -/
def multilineScan (varname : String) : List String → String
  | [] => ""
  | line :: rest =>
    let pre := varname.data ++ ['=']
    if pre.isPrefixOf line.data then
      let value := line.data.drop pre.length
      match value with
      | '"' :: tailv =>
        if value.getLast? = some '"' ∧ value.length > 1 then ⟨(value.drop 1).dropLast⟩
        else multilineCollect '"' [(⟨tailv⟩ : String)] rest
      | '\'' :: tailv =>
        if value.getLast? = some '\'' ∧ value.length > 1 then ⟨(value.drop 1).dropLast⟩
        else multilineCollect '\'' [(⟨tailv⟩ : String)] rest
      | _ => ⟨value⟩
    else multilineScan varname rest

/-- APKBUILDParser._extract_multiline_var. -/
def extractMultilineVar (content : String) (varname : String) : String :=
  multilineScan varname (splitLines content)

/-! ## Dependency token cleaning (APKBUILDParser._clean_dep_name) -/

/-- Remove every parenthesized segment: at an opening parenthesis with a
later closing parenthesis, drop through the first closing parenthesis,
otherwise keep the character (the parenthesis-segment re.sub).  Every
recursive call consumes at least one character, so fuel equal to the
input length suffices. -/
def removeParensAux : Nat → List Char → List Char
  | 0, s => s
  | _ + 1, [] => []
  | fuel + 1, d :: rest =>
    if d = '(' ∧ rest.contains ')' then
      removeParensAux fuel ((dropWhileL (fun c => c ≠ ')') rest).drop 1)
    else d :: removeParensAux fuel rest

/-- Parenthesized-segment removal over a character list. -/
def removeParens (s : List Char) : List Char :=
  removeParensAux s.length s

/-- Truncation at a double colon, applied when one occurs. -/
def truncAtColons (s : List Char) : List Char :=
  if containsSub s [':', ':'] then takeBeforeSub [':', ':'] s else s

/-- APKBUILDParser._clean_dep_name. -/
def cleanDepName (dep : String) : Option String :=
  if dep = "" then none
  else if dep ∈ (["", "\\", "\"", "'", "(", ")", " "] : List String) then none
  else if dep.data.head? = some '!' then none
  else
    let d1 := takeWhileL (fun c => c ≠ '>' ∧ c ≠ '<' ∧ c ≠ '=' ∧ c ≠ '~') dep.data
    let d2 := truncAtColons d1
    let d3 := removeParens d2
    let d4 := pyStripL d3
    if d4 = [] then none
    else if !(d4.head?.map Char.isAlphanum).getD false then none
    else some ⟨d4⟩

/-! ## Dependency string parsing (APKBUILDParser._parse_deps_string) -/

/-- Per-token processing of the dependency loop: strip, skip empties,
handle tokens that still contain a dollar (kept only when the canonical
name is known and the token contains the dollar-pkgname marker as a
substring, in which case every occurrence is replaced), then clean. -/
def processDepToken (pkgname : String) (token0 : String) : Option String :=
  let token := pyStrip token0
  if token = "" then none
  else if charIn '$' token then
    if pkgname ≠ "" ∧ strContains token "$pkgname" then
      cleanDepName (replaceSub token "$pkgname" pkgname)
    else none
  else cleanDepName token

/-- APKBUILDParser._parse_deps_string: strip hash-led trailing comments
per physical line, rejoin with spaces, expand, split on whitespace and
process every token. -/
def parseDepsString (ctx : BashCtx) (depsStr : String) (pkgname : String) :
    List String × BashCtx :=
  let cleanedLines := (splitLines depsStr).map
    (fun l => (⟨takeBeforeChar '#' l.data⟩ : String))
  let joined := " ".intercalate cleanedLines
  let (expanded, ctx') := expand ctx joined
  ((splitWs expanded).filterMap (processDepToken pkgname), ctx')

/-- APKBUILDParser._extract_dep_list: prefer the context value when it
is non-blank and yields tokens, otherwise fall back to the direct
multi-line scan of the raw content.  Context mutations made by the
first expansion persist into the fallback, as they do on the shared
parser context in the source. -/
def extractDepList (ctx : BashCtx) (content varname pkgname : String) :
    List String × BashCtx :=
  let value := ctxGet ctx varname
  if value ≠ "" ∧ pyStrip value ≠ "" ∧ pyStrip value ≠ " " then
    let (deps, ctx1) := parseDepsString ctx value pkgname
    if deps ≠ [] then (deps, ctx1)
    else
      let depsStr := extractMultilineVar content varname
      if depsStr ≠ "" then parseDepsString ctx1 depsStr pkgname
      else ([], ctx1)
  else
    let depsStr := extractMultilineVar content varname
    if depsStr ≠ "" then parseDepsString ctx depsStr pkgname
    else ([], ctx)

/-- Per-token processing of APKBUILDParser._extract_subpackages. -/
def subpkgClean (pkgname : String) (subpkg : String) : Option String :=
  let step1 : Option String :=
    if ("$pkgname-".data).isPrefixOf subpkg.data then
      some ⟨pkgname.data ++ subpkg.data.drop 8⟩
    else if ("$pkgname".data).isPrefixOf subpkg.data then none
    else some subpkg
  match step1 with
  | none => none
  | some sp =>
    let sp2 := if charIn ':' sp then (⟨takeBeforeChar ':' sp.data⟩ : String) else sp
    if sp2 ≠ "" ∧ sp2 ≠ pkgname then some sp2 else none

/-- APKBUILDParser._extract_subpackages. -/
def extractSubpackages (ctx : BashCtx) (content pkgname : String) :
    List String × BashCtx :=
  let (raw, ctx') := extractDepList ctx content "subpackages" pkgname
  (raw.filterMap (subpkgClean pkgname), ctx')

/-! ## Release number (APKBUILDParser._parse_pkgrel and
_eval_shell_arithmetic) -/

/-- Decimal reading of a digit string. -/
def digitsToNat (s : List Char) : Nat :=
  s.foldl (fun n c => n * 10 + (c.toNat - 48)) 0

/-- Python str.isdigit for ASCII content: nonempty, all digits. -/
def isDigits (s : String) : Bool :=
  !s.data.isEmpty && s.data.all Char.isDigit

/-- Fallback extraction of the release value: the first line starting
with the release keyword and an equals sign followed by at least one
non-whitespace character; the value is the maximal non-whitespace run
(the anchored multiline search of the source). -/
def pkgrelScanLines : List String → String
  | [] => ""
  | line :: rest =>
    if ("pkgrel=".data).isPrefixOf line.data then
      let grp := takeWhileL (fun c => !isPySpace c) (line.data.drop 7)
      if grp = [] then pkgrelScanLines rest else ⟨grp⟩
    else pkgrelScanLines rest

/-- Check that a remainder consists of optional whitespace followed by a
double close parenthesis: the tail condition of the lazy arithmetic
match.  Backtracking inside the whitespace-star cannot help, because any
shorter whitespace prefix is followed by a whitespace character rather
than a close parenthesis. -/
def arithMatchCheck (rest : List Char) : Bool :=
  (dropWhileL isPySpace rest).take 2 = [')', ')']

/-- Match the shell arithmetic form at the start of the value: dollar,
two open parentheses, greedy whitespace, a lazy nonempty group without
newlines, optional whitespace and two close parentheses; the
whitespace-star backtracks from greedy to empty and the lazy group
grows from one character. -/
def arithMatchGroup (s : List Char) : Option (List Char) :=
  match s with
  | '$' :: '(' :: '(' :: r =>
    let maxSp := (takeWhileL isPySpace r).length
    (List.range (maxSp + 1)).reverse.findSome? (fun i =>
      let body := r.drop i
      (List.range body.length).findSome? (fun k0 =>
        let grp := body.take (k0 + 1)
        if grp.contains '\n' then none
        else if arithMatchCheck (body.drop (k0 + 1)) then some grp
        else none))
  | _ => none

/-- Arithmetic-form match on a String. -/
def arithMatch (s : String) : Option String :=
  (arithMatchGroup s.data).map (fun g => ⟨g⟩)

/-- Parse one line as an underscore-variable definition: an underscore,
a nonempty run of word characters, an equals sign, then a nonempty
maximal digit run (the multiline finditer pattern of
_eval_shell_arithmetic). -/
def arithVarLine (line : List Char) : Option (String × Nat) :=
  match line with
  | '_' :: rest =>
    let w := takeWhileL isWordChar rest
    if w = [] then none
    else
      match rest.drop w.length with
      | '=' :: r2 =>
        let ds := takeWhileL Char.isDigit r2
        if ds = [] then none else some (⟨'_' :: w⟩, digitsToNat ds)
      | _ => none
  | [] => none
  | _ => none

/-- Variable table collected over the whole file; later definitions of
the same name overwrite earlier ones, as dict assignment does. -/
def arithVarTable (content : String) : List (String × Nat) :=
  (splitLines content).foldl
    (fun d line =>
      match arithVarLine line.data with
      | some (k, v) => dictSetN d k v
      | none => d)
    []

/-- Substitute every underscore-name token in the expression by its
table value (zero when absent), scanning left to right.  Fuel equal to
the input length suffices since every step consumes a character. -/
def substArithVars (tbl : List (String × Nat)) : Nat → List Char → List Char
  | 0, s => s
  | _ + 1, [] => []
  | fuel + 1, '_' :: rest =>
    let w := takeWhileL isWordChar rest
    if w = [] then '_' :: substArithVars tbl fuel rest
    else
      (toString ((dictGetN tbl ⟨'_' :: w⟩).getD 0)).data
        ++ substArithVars tbl fuel (rest.drop w.length)
  | fuel + 1, c :: rest => c :: substArithVars tbl fuel rest

/-- Keep only digits, the four arithmetic operator characters and
whitespace (the sanitizing character-class re.sub).  After this filter
the safety gate of the source succeeds exactly when the string is
nonempty. -/
def filterArithChars (s : List Char) : List Char :=
  s.filter (fun c => c.isDigit || c = '+' || c = '-' || c = '*' || c = '/' || isPySpace c)

/-- Arithmetic token. -/
inductive ATok where
  | num (n : Nat)
  | addT
  | subT
  | mulT
  | divT
  | powT
  | fdivT
deriving Repr, DecidableEq

/-- Tokenize a sanitized arithmetic expression.  Adjacent star-star and
slash-slash form the power and floor-division operators, as in the
Python tokenizer; separated ones stay as two tokens, which the parser
then rejects exactly as eval raises a syntax error. -/
def lexArith : Nat → List Char → List ATok
  | 0, _ => []
  | _ + 1, [] => []
  | fuel + 1, c :: rest =>
    if isPySpace c then lexArith fuel rest
    else if c.isDigit then
      let ds := takeWhileL Char.isDigit (c :: rest)
      ATok.num (digitsToNat ds) :: lexArith fuel ((c :: rest).drop ds.length)
    else if c = '+' then ATok.addT :: lexArith fuel rest
    else if c = '-' then ATok.subT :: lexArith fuel rest
    else if c = '*' then
      match rest with
      | '*' :: rest2 => ATok.powT :: lexArith fuel rest2
      | _ => ATok.mulT :: lexArith fuel rest
    else if c = '/' then
      match rest with
      | '/' :: rest2 => ATok.fdivT :: lexArith fuel rest2
      | _ => ATok.divT :: lexArith fuel rest
    else lexArith fuel rest

/-- Exact fraction used to model Python numeric values during eval
(ints and floats represented exactly; the denominator is never zero and
is kept meaningful up to sign). -/
structure PyNum where
  num : Int
  den : Int
deriving Repr, DecidableEq

/-- Integer as a fraction. -/
def pynumOfNat (n : Nat) : PyNum := ⟨(n : Int), 1⟩

/-- Integer value as a fraction. -/
def pynumOfInt (n : Int) : PyNum := ⟨n, 1⟩

/-- Normalize the sign so the denominator is positive. -/
def pynumNorm (q : PyNum) : PyNum :=
  if q.den < 0 then ⟨-q.num, -q.den⟩ else q

/-- Fraction addition. -/
def pynumAdd (a b : PyNum) : PyNum :=
  ⟨a.num * b.den + b.num * a.den, a.den * b.den⟩

/-- Fraction subtraction. -/
def pynumSub (a b : PyNum) : PyNum :=
  ⟨a.num * b.den - b.num * a.den, a.den * b.den⟩

/-- Fraction multiplication. -/
def pynumMul (a b : PyNum) : PyNum :=
  ⟨a.num * b.num, a.den * b.den⟩

/-- Fraction negation. -/
def pynumNeg (a : PyNum) : PyNum := ⟨-a.num, a.den⟩

/-- True division; a zero divisor fails as eval raises. -/
def pynumDiv (a b : PyNum) : Option PyNum :=
  if b.num = 0 then none else some ⟨a.num * b.den, a.den * b.num⟩

/-- Floor division, the double-slash operator. -/
def pynumFloorDiv (a b : PyNum) : Option PyNum :=
  if b.num = 0 then none
  else
    let q := pynumNorm ⟨a.num * b.den, a.den * b.num⟩
    some (pynumOfInt (q.num.fdiv q.den))

/-- Power with Python semantics on the reachable inputs: defined for
integral exponents, where a negative exponent inverts (failing on a
zero base); a non-integral exponent would produce an irrational float
and is modelled as failure. -/
def pynumPow (b e : PyNum) : Option PyNum :=
  let en := pynumNorm e
  if en.num.emod en.den = 0 then
    let k := en.num.ediv en.den
    if 0 ≤ k then some ⟨b.num ^ k.toNat, b.den ^ k.toNat⟩
    else if b.num = 0 then none
    else some ⟨b.den ^ (-k).toNat, b.num ^ (-k).toNat⟩
  else none

/-- Truncation toward zero, the effect of int() on the eval result. -/
def pynumTrunc (q : PyNum) : Int :=
  (pynumNorm q).num.tdiv (pynumNorm q).den

/-- Factor of the eval grammar: unary plus and minus chains over a
number possibly raised to a power (right associative, binding the
unary sign outside, as in Python). -/
def parseFactorFuel : Nat → List ATok → Option (PyNum × List ATok)
  | 0, _ => none
  | fuel + 1, ATok.addT :: ts => parseFactorFuel fuel ts
  | fuel + 1, ATok.subT :: ts =>
    (parseFactorFuel fuel ts).map (fun p => (pynumNeg p.1, p.2))
  | fuel + 1, ATok.num n :: ts =>
    (match ts with
     | ATok.powT :: ts2 =>
       match parseFactorFuel fuel ts2 with
       | some (e, r) => (pynumPow (pynumOfNat n) e).map (fun v => (v, r))
       | none => none
     | _ => some (pynumOfNat n, ts))
  | _, _ => none

/-- Multiplicative loop: star, true division (failing on a zero
divisor, as eval raises) and floor division. -/
def parseTermLoop : Nat → PyNum → List ATok → Option (PyNum × List ATok)
  | 0, _, _ => none
  | fuel + 1, acc, ATok.mulT :: ts =>
    (match parseFactorFuel fuel ts with
     | some (v, r) => parseTermLoop fuel (pynumMul acc v) r
     | none => none)
  | fuel + 1, acc, ATok.divT :: ts =>
    (match parseFactorFuel fuel ts with
     | some (v, r) =>
       match pynumDiv acc v with
       | some w => parseTermLoop fuel w r
       | none => none
     | none => none)
  | fuel + 1, acc, ATok.fdivT :: ts =>
    (match parseFactorFuel fuel ts with
     | some (v, r) =>
       match pynumFloorDiv acc v with
       | some w => parseTermLoop fuel w r
       | none => none
     | none => none)
  | _, acc, ts => some (acc, ts)

/-- Term of the eval grammar. -/
def parseTermFuel (fuel : Nat) (ts : List ATok) : Option (PyNum × List ATok) :=
  match parseFactorFuel fuel ts with
  | some (v, r) => parseTermLoop fuel v r
  | none => none

/-- Additive loop. -/
def parseExprLoop : Nat → PyNum → List ATok → Option (PyNum × List ATok)
  | 0, _, _ => none
  | fuel + 1, acc, ATok.addT :: ts =>
    (match parseTermFuel fuel ts with
     | some (v, r) => parseExprLoop fuel (pynumAdd acc v) r
     | none => none)
  | fuel + 1, acc, ATok.subT :: ts =>
    (match parseTermFuel fuel ts with
     | some (v, r) => parseExprLoop fuel (pynumSub acc v) r
     | none => none)
  | _, acc, ts => some (acc, ts)

/-- Evaluate a sanitized arithmetic expression the way Python eval does
on the restricted character set, requiring all tokens to be consumed;
float results are modelled as exact fractions. -/
def evalPy (s : List Char) : Option PyNum :=
  let ts := lexArith s.length s
  let fuel := 2 * ts.length + 4
  match parseTermFuel fuel ts with
  | some (v, r) =>
    (match parseExprLoop fuel v r with
     | some (w, []) => some w
     | _ => none)
  | none => none

/-- APKBUILDParser._eval_shell_arithmetic. -/
def evalShellArithmetic (content : String) (expr : String) : Int :=
  let tbl := arithVarTable content
  let e1 := substArithVars tbl expr.data.length expr.data
  let e2 := filterArithChars e1
  if e2 = [] then 0
  else
    match evalPy e2 with
    | some q => pynumTrunc q
    | none => 0

/-- Effective release string: the context value, or the direct content
scan when the context value is empty. -/
def pkgrelStr (st : ParseVarsState) (content : String) : String :=
  let s := ctxGet st.ctx "pkgrel"
  if s = "" then pkgrelScanLines (splitLines content) else s

/-- APKBUILDParser._parse_pkgrel. -/
def parsePkgrel (st : ParseVarsState) (content : String) : Int :=
  let s := pkgrelStr st content
  if s = "" then 0
  else if isDigits s then (digitsToNat s.data : Int)
  else
    match arithMatch s with
    | some expr => evalShellArithmetic content expr
    | none => 0

/-! ## Comment metadata and paths -/

/-- Match a maintainer comment line: hash, optional whitespace, the
maintainer keyword with a colon, then at least one character whose
stripped form becomes the value.  Cross-line whitespace matches of the
multiline regex are not modelled; all inputs considered here are
line-contained. -/
def maintainerOfLine (line : String) : Option String :=
  match line.data with
  | '#' :: r0 =>
    let r1 := dropWhileL isPySpace r0
    if ("Maintainer:".data).isPrefixOf r1 then
      let rest := r1.drop ("Maintainer:".data).length
      if rest = [] then none else some (pyStrip ⟨rest⟩)
    else none
  | _ => none

/-- Match a contributor comment line. -/
def contributorOfLine (line : String) : Option String :=
  match line.data with
  | '#' :: r0 =>
    let r1 := dropWhileL isPySpace r0
    if ("Contributor:".data).isPrefixOf r1 then
      let rest := r1.drop ("Contributor:".data).length
      if rest = [] then none else some (pyStrip ⟨rest⟩)
    else none
  | _ => none

/-- Path components as pathlib yields them for simple relative or
absolute paths: slash-separated, empty and single-dot components
dropped. -/
def pathParts (fp : String) : List String :=
  ((splitOnChar '/' fp.data).map (fun l => (⟨l⟩ : String))).filter
    (fun p => p ≠ "" ∧ p ≠ ".")

/-- Name of the parent directory of a path (pathlib parent dot name). -/
def parentDirName (fp : String) : String :=
  match (pathParts fp).dropLast.getLast? with
  | some d => d
  | none => ""

/-- Repository collection detection from the path components. -/
def repoOf (fp : String) : String :=
  let parts := pathParts fp
  match (["main", "community", "testing", "unmaintained"].find?
      (fun r => parts.contains r)) with
  | some r => r
  | none => ""

/-! ## APKBUILDParser.parse_content -/

/-- Full single-file parse: pass 1 variable discovery, package name
resolution with the directory fallback, then field extraction.  The
shared context is threaded through every expansion in source order. -/
def parseContent (content : String) (filepath : String) : Option PackageInfo :=
  let st := parseVariables content
  let pkgname0 :=
    match st.firstPkgname with
    | some s => if s ≠ "" then s else ctxGet st.ctx "pkgname"
    | none => ctxGet st.ctx "pkgname"
  if pkgname0 = "" then none
  else
    let pn1 := stripChars ['"', '\''] (pyStrip pkgname0)
    let pkgname :=
      if charIn '$' pn1 ∧ filepath ≠ "" then
        let dirName := parentDirName filepath
        if dirName ≠ "" ∧ dirName.data.head? ≠ some '.' then dirName else pn1
      else pn1
    let (version, ctx1) := expand st.ctx (ctxGet st.ctx "pkgver")
    let st1 : ParseVarsState := ⟨ctx1, st.firstPkgname⟩
    let release := parsePkgrel st1 content
    let description := stripChars ['"'] (ctxGetD ctx1 "pkgdesc" "")
    let url := stripChars ['"'] (ctxGetD ctx1 "url" "")
    let license := stripChars ['"'] (ctxGetD ctx1 "license" "")
    let arch := stripChars ['"'] (ctxGetD ctx1 "arch" "all")
    let maintainer := ((splitLines content).findSome? maintainerOfLine).getD ""
    let contributors := (splitLines content).filterMap contributorOfLine
    let (depends, ctx2) := extractDepList ctx1 content "depends" pkgname
    let (makedepends, ctx3) := extractDepList ctx2 content "makedepends" pkgname
    let (makedependsB, ctx4) := extractDepList ctx3 content "makedepends_build" pkgname
    let (makedependsH, ctx5) := extractDepList ctx4 content "makedepends_host" pkgname
    let (checkdepends, ctx6) := extractDepList ctx5 content "checkdepends" pkgname
    let (provides, ctx7) := extractDepList ctx6 content "provides" pkgname
    let (replaces, ctx8) := extractDepList ctx7 content "replaces" pkgname
    let (subpackages, _) := extractSubpackages ctx8 content pkgname
    some
      { name := pkgname
        version := version
        release := release
        description := description
        url := url
        license := license
        arch := arch
        depends := depends
        makedepends := makedepends
        makedepends_build := makedependsB
        makedepends_host := makedependsH
        checkdepends := checkdepends
        provides := provides
        replaces := replaces
        subpackages := subpackages
        maintainer := maintainer
        contributors := contributors
        repo := repoOf filepath
        filepath := filepath }

/-! ## NetworkX directed graph model (graph.py)

A DiGraph keeps node insertion order and at most one edge per ordered
(source, target) pair; re-adding an existing edge overwrites its
attributes in place.  Only the type attribute is ever set, so an edge is
modelled as a (source, target, type) triple. -/

/-- Directed graph with a single typed edge per ordered node pair. -/
structure NxDiGraph where
  nodes : List String
  edges : List (String × String × String)
deriving Repr, DecidableEq

/-- Fresh empty graph. -/
def emptyGraph : NxDiGraph := ⟨[], []⟩

/-- DiGraph.add_node (node attributes are not modelled; no query under
consideration reads them). -/
def addNode (g : NxDiGraph) (n : String) : NxDiGraph :=
  if n ∈ g.nodes then g else { g with nodes := g.nodes ++ [n] }

/-- DiGraph.add_edge with a type attribute: endpoints are added as
nodes, and an existing edge for the same ordered pair has its type
overwritten in place. -/
def addEdge (g : NxDiGraph) (u v ty : String) : NxDiGraph :=
  let g1 := addNode (addNode g u) v
  if g1.edges.any (fun e => e.1 = u ∧ e.2.1 = v) then
    { g1 with
      edges := g1.edges.map (fun e => if e.1 = u ∧ e.2.1 = v then (u, v, ty) else e) }
  else { g1 with edges := g1.edges ++ [(u, v, ty)] }

/-- Outgoing edges of a node, in insertion order. -/
def outEdges (g : NxDiGraph) (u : String) : List (String × String × String) :=
  g.edges.filter (fun e => e.1 = u)

/-- DiGraph.reverse: same nodes, every edge flipped, attributes kept. -/
def reverseGraph (g : NxDiGraph) : NxDiGraph :=
  ⟨g.nodes, g.edges.map (fun e => (e.2.1, e.1, e.2.2))⟩

/-- Edge membership as a Boolean. -/
def hasEdgeB (g : NxDiGraph) (a b : String) : Bool :=
  g.edges.any (fun e => e.1 = a ∧ e.2.1 = b)

/-! ## DependencyGraph (graph.py, class DependencyGraph) -/

/-- Dependency kind selector. -/
inductive DependencyType where
  | runtime
  | build
  | check
  | all
deriving Repr, DecidableEq

/-- Kind filter of the direct-dependency queries: the all selector
accepts every edge, the others compare the edge's type tag. -/
def edgeTypeMatches (dt : DependencyType) (ty : String) : Bool :=
  match dt with
  | DependencyType.all => true
  | DependencyType.runtime => ty = "runtime"
  | DependencyType.build => ty = "build"
  | DependencyType.check => ty = "check"

/-- State of a DependencyGraph object: the record map, the forward
graph, the reverse graph precomputed at construction, and the two name
resolution indexes. -/
structure DependencyGraph where
  packages : List (String × PackageInfo)
  graph : NxDiGraph
  rgraph : NxDiGraph
  providesMap : List (String × String)
  subpkgMap : List (String × String)
deriving Repr, DecidableEq

/-- Alias key of a provides entry during construction: the text before
the first equals, then before the first greater-than, then before the
first less-than. -/
def provName (prov : String) : String :=
  ⟨takeBeforeChar '<' (takeBeforeChar '>' (takeBeforeChar '=' prov.data))⟩

/-- DependencyGraph._resolve_dep over explicit record map and indexes:
a canonical record name resolves to itself, otherwise the provides
index, otherwise the subpackage index. -/
def resolveDep (pkgs : List (String × PackageInfo))
    (pm sm : List (String × String)) (dep : String) : Option String :=
  if pkgs.any (fun p => p.1 = dep) then some dep
  else
    match dictGet pm dep with
    | some v => some v
    | none => dictGet sm dep

/-- Add one typed edge for a single dependency token when it resolves
to a nonempty name already known as a node (the truthiness and
membership guard of the source). -/
def addDepEdge (pkgs : List (String × PackageInfo))
    (pm sm : List (String × String)) (src ty : String) (g : NxDiGraph)
    (dep : String) : NxDiGraph :=
  match resolveDep pkgs pm sm dep with
  | some r => if r ≠ "" ∧ r ∈ g.nodes then addEdge g src r ty else g
  | none => g

/-- Add one typed edge per dependency token of a list. -/
def addTypedEdges (pkgs : List (String × PackageInfo))
    (pm sm : List (String × String)) (g : NxDiGraph) (src : String)
    (deps : List String) (ty : String) : NxDiGraph :=
  deps.foldl (addDepEdge pkgs pm sm src ty) g

/-- Step of the first pass of DependencyGraph._build_graph over one
record: add the node, register its provides and subpackage names. -/
def buildPass1Step (acc : NxDiGraph × List (String × String) × List (String × String))
    (entry : String × PackageInfo) :
    NxDiGraph × List (String × String) × List (String × String) :=
  (addNode acc.1 entry.1,
   entry.2.provides.foldl (fun pm prov => dictSet pm (provName prov) entry.1) acc.2.1,
   entry.2.subpackages.foldl (fun sm sp => dictSet sm sp entry.1) acc.2.2)

/-- First pass of DependencyGraph._build_graph: add the nodes and build
the provides and subpackage indexes. -/
def buildPass1 (pkgs : List (String × PackageInfo)) :
    NxDiGraph × List (String × String) × List (String × String) :=
  pkgs.foldl buildPass1Step (emptyGraph, [], [])

/-- Second pass of DependencyGraph._build_graph over one record:
runtime, build and check edges, in that order. -/
def buildPass2Step (pkgs : List (String × PackageInfo))
    (pm sm : List (String × String)) (g : NxDiGraph)
    (entry : String × PackageInfo) : NxDiGraph :=
  let g1 := addTypedEdges pkgs pm sm g entry.1 entry.2.depends "runtime"
  let g2 := addTypedEdges pkgs pm sm g1 entry.1 (buildDependsList entry.2) "build"
  addTypedEdges pkgs pm sm g2 entry.1 entry.2.checkdepends "check"

/-- DependencyGraph construction from a record map: nodes and indexes,
then runtime, build and check edges per record, then the reverse graph
snapshot. -/
def buildGraph (pkgs : List (String × PackageInfo)) : DependencyGraph :=
  let p1 := buildPass1 pkgs
  let g := pkgs.foldl (buildPass2Step pkgs p1.2.1 p1.2.2) p1.1
  ⟨pkgs, g, reverseGraph g, p1.2.1, p1.2.2⟩

/-- Record-map update of DependencyGraph.add_package (dict assignment
on the package dict). -/
def addPackagePkgs (st : DependencyGraph) (pkg : PackageInfo) :
    List (String × PackageInfo) :=
  if st.packages.any (fun p => p.1 = pkg.name) then
    st.packages.map (fun p => if p.1 = pkg.name then (pkg.name, pkg) else p)
  else st.packages ++ [(pkg.name, pkg)]

/-- Provides-index update of add_package; the key here strips only at
the first equals, as in the source. -/
def addPackagePm (st : DependencyGraph) (pkg : PackageInfo) :
    List (String × String) :=
  pkg.provides.foldl
    (fun pm prov => dictSet pm ⟨takeBeforeChar '=' prov.data⟩ pkg.name) st.providesMap

/-- Subpackage-index update of add_package. -/
def addPackageSm (st : DependencyGraph) (pkg : PackageInfo) :
    List (String × String) :=
  pkg.subpackages.foldl (fun sm sp => dictSet sm sp pkg.name) st.subpkgMap

/-- DependencyGraph.add_package: update the record map, the node set and
the indexes, then add runtime and build edges only; the reverse graph is
not touched. -/
def addPackage (st : DependencyGraph) (pkg : PackageInfo) : DependencyGraph :=
  { st with
    packages := addPackagePkgs st pkg
    graph := addTypedEdges (addPackagePkgs st pkg) (addPackagePm st pkg)
      (addPackageSm st pkg)
      (addTypedEdges (addPackagePkgs st pkg) (addPackagePm st pkg)
        (addPackageSm st pkg) (addNode st.graph pkg.name) pkg.name
        pkg.depends "runtime")
      pkg.name (buildDependsList pkg) "build"
    providesMap := addPackagePm st pkg
    subpkgMap := addPackageSm st pkg }

/-- DependencyGraph._get_direct_deps on a graph: filter the outgoing
edges by kind, then sorted set. -/
def getDirectDepsG (g : NxDiGraph) (package : String) (dt : DependencyType) :
    List String :=
  sortedSet ((outEdges g package).filterMap
    (fun e => if edgeTypeMatches dt e.2.2 then some e.2.1 else none))

/-- Breadth-first visit of DependencyGraph._get_recursive_deps: pop the
front, skip visited nodes and nodes beyond the depth bound, otherwise
mark visited and enqueue the unvisited direct dependencies one hop
deeper.  Each step consumes one queue entry, so the generous fuel chosen
by the caller lets the queue drain on every graph of interest; all
claimed properties hold for every fuel value. -/
def bfsVisited (g : NxDiGraph) (dt : DependencyType) (maxDepth : Int) :
    Nat → List (String × Nat) → List String → List String
  | 0, _, visited => visited
  | _ + 1, [], visited => visited
  | fuel + 1, (current, depth) :: queue, visited =>
    if current ∈ visited then bfsVisited g dt maxDepth fuel queue visited
    else if 0 ≤ maxDepth ∧ maxDepth < (depth : Int) then
      bfsVisited g dt maxDepth fuel queue visited
    else
      let visited1 := visited ++ [current]
      let pushes := ((getDirectDepsG g current dt).filter
        (fun dep => dep ∉ visited1)).map (fun dep => (dep, depth + 1))
      bfsVisited g dt maxDepth fuel (queue ++ pushes) visited1

/-- DependencyGraph._get_recursive_deps: run the visit from the root at
depth zero, discard the root and sort. -/
def getRecursiveDepsG (g : NxDiGraph) (package : String) (dt : DependencyType)
    (maxDepth : Int) : List String :=
  let fuel := (g.nodes.length + g.edges.length + 2) * (g.edges.length + 2)
  let visited := bfsVisited g dt maxDepth fuel [(package, 0)] []
  sortPy (visited.erase package)

/-- DependencyGraph.get_dependencies. -/
def getDependencies (st : DependencyGraph) (package : String)
    (dt : DependencyType) (recursive : Bool) (maxDepth : Int) : List String :=
  if package ∉ st.graph.nodes then []
  else if recursive then getRecursiveDepsG st.graph package dt maxDepth
  else getDirectDepsG st.graph package dt

/-- DependencyGraph.get_reverse_dependencies, driven by the reverse
graph snapshot. -/
def getReverseDependencies (st : DependencyGraph) (package : String)
    (dt : DependencyType) (recursive : Bool) (maxDepth : Int) : List String :=
  if package ∉ st.rgraph.nodes then []
  else if recursive then getRecursiveDepsG st.rgraph package dt maxDepth
  else getDirectDepsG st.rgraph package dt

/-- Breadth-first search for a path, modelling the unweighted shortest
path call: pop the front, return the carried path at the target,
otherwise enqueue unvisited successors with extended paths.  Only the
validity of a returned path and the behavior at exhaustion matter for
the claims, and both hold for every fuel value. -/
def bfsPath (g : NxDiGraph) (target : String) :
    Nat → List (String × List String) → List String → Option (List String)
  | 0, _, _ => none
  | _ + 1, [], _ => none
  | fuel + 1, (current, path) :: queue, visited =>
    if current = target then some path
    else
      let nbrs := ((outEdges g current).map (fun e => e.2.1)).filter
        (fun n => n ∉ visited)
      bfsPath g target fuel (queue ++ nbrs.map (fun n => (n, path ++ [n])))
        (visited ++ nbrs)

/-- DependencyGraph.get_dependency_path: unknown endpoints give no
path, otherwise breadth-first search from the source. -/
def getDependencyPath (st : DependencyGraph) (source target : String) :
    Option (List String) :=
  if source ∉ st.graph.nodes ∨ target ∉ st.graph.nodes then none
  else
    let fuel := (st.graph.nodes.length + st.graph.edges.length + 2)
      * (st.graph.edges.length + 2)
    bfsPath st.graph target fuel [(source, [source])] [source]

/-! ## Specification-side predicates used to state the claims -/

/-- Nodes reachable in exactly d hops from the root through edges of the
requested kind (as the direct-dependency query sees them). -/
def reachN (g : NxDiGraph) (dt : DependencyType) (root : String) :
    Nat → String → Prop
  | 0, x => x = root
  | d + 1, x => ∃ y, reachN g dt root d y ∧ x ∈ getDirectDepsG g y dt

/-- Directed path in a graph: starts at s, ends at t, every consecutive
pair is an edge. -/
def ValidPath (g : NxDiGraph) (s t : String) (p : List String) : Prop :=
  p.head? = some s ∧ p.getLast? = some t ∧
    List.Chain' (fun a b => hasEdgeB g a b = true) p

/-- Existence of a directed path. -/
def ReachableG (g : NxDiGraph) (s t : String) : Prop :=
  ∃ p, ValidPath g s t p

/-! ## Concrete fixtures used by the claim theorems -/

/-- Two records where the first declares the same target under both the
runtime and the build dependency list. -/
def pkgsDual : List (String × PackageInfo) :=
  [("a", { name := "a", depends := ["b"], makedepends := ["b"] }),
   ("b", { name := "b" })]

/-- Two records where the first declares a check dependency on the
second. -/
def pkgsChk : List (String × PackageInfo) :=
  [("p", { name := "p", checkdepends := ["q"] }),
   ("q", { name := "q" })]

/-- Two isolated records with no edges. -/
def pkgsIso : List (String × PackageInfo) :=
  [("x", { name := "x" }), ("y", { name := "y" })]

/-- Edge keys of a graph: the ordered source-target pairs. -/
def edgeKeys (g : NxDiGraph) : List (String × String) :=
  g.edges.map (fun e => (e.1, e.2.1))

/-- Well-formedness of edge endpoints: both ends of every edge are
nodes. -/
def EdgesWf (g : NxDiGraph) : Prop :=
  ∀ e ∈ g.edges, e.1 ∈ g.nodes ∧ e.2.1 ∈ g.nodes

end DepMap

namespace DepMap

/-! # Theorems

Helper lemmas first, then one theorem per claim (with its witness or
counterexample where applicable). -/

/-! ## Order and sorting lemmas -/

theorem listLe_total : ∀ a b : List Char, listLe a b = true ∨ listLe b a = true
  | [], _ => Or.inl rfl
  | _ :: _, [] => Or.inr rfl
  | a :: as, b :: bs => by
    by_cases h : a.toNat = b.toNat
    · rcases listLe_total as bs with h1 | h1
      · exact Or.inl (by simp [listLe, h, h1])
      · exact Or.inr (by simp [listLe, h.symm, h1])
    · have h2 : ¬b.toNat = a.toNat := fun e => h e.symm
      rcases Nat.lt_or_ge a.toNat b.toNat with hl | hl
      · exact Or.inl (by simp [listLe, h]; omega)
      · exact Or.inr (by simp [listLe, h2]; omega)

theorem listLe_trans : ∀ a b c : List Char,
    listLe a b = true → listLe b c = true → listLe a c = true
  | [], _, _, _, _ => rfl
  | _ :: _, [], _, h1, _ => by simp [listLe] at h1
  | _ :: _, _ :: _, [], _, h2 => by simp [listLe] at h2
  | a :: as, b :: bs, c :: cs, h1, h2 => by
    by_cases e1 : a.toNat = b.toNat <;> by_cases e2 : b.toNat = c.toNat
    · simp only [listLe, if_pos e1] at h1
      simp only [listLe, if_pos e2] at h2
      simp only [listLe, if_pos (e1.trans e2)]
      exact listLe_trans as bs cs h1 h2
    · simp only [listLe, if_neg e2, decide_eq_true_eq] at h2
      have : ¬a.toNat = c.toNat := by omega
      simp only [listLe, if_neg this, decide_eq_true_eq]
      omega
    · simp only [listLe, if_neg e1, decide_eq_true_eq] at h1
      have : ¬a.toNat = c.toNat := by omega
      simp only [listLe, if_neg this, decide_eq_true_eq]
      omega
    · simp only [listLe, if_neg e1, decide_eq_true_eq] at h1
      simp only [listLe, if_neg e2, decide_eq_true_eq] at h2
      have : ¬a.toNat = c.toNat := by omega
      simp only [listLe, if_neg this, decide_eq_true_eq]
      omega

instance : IsTotal String strLE :=
  ⟨fun a b => listLe_total a.data b.data⟩

instance : IsTrans String strLE :=
  ⟨fun a b c => listLe_trans a.data b.data c.data⟩

theorem mem_sortPy {a : String} {l : List String} : a ∈ sortPy l ↔ a ∈ l := by
  unfold sortPy
  exact List.mem_insertionSort strLE

theorem nodup_sortPy {l : List String} (h : l.Nodup) : (sortPy l).Nodup :=
  (List.perm_insertionSort strLE l).nodup_iff.mpr h

theorem sorted_sortPy (l : List String) : List.Sorted strLE (sortPy l) :=
  List.sorted_insertionSort strLE l

theorem mem_sortedSet {a : String} {l : List String} : a ∈ sortedSet l ↔ a ∈ l := by
  unfold sortedSet
  rw [mem_sortPy, List.mem_dedup]

theorem nodup_sortedSet (l : List String) : (sortedSet l).Nodup :=
  nodup_sortPy l.nodup_dedup

theorem sorted_sortedSet (l : List String) : List.Sorted strLE (sortedSet l) :=
  sorted_sortPy l.dedup

/-! ## Graph construction lemmas -/

theorem addNode_edges (g : NxDiGraph) (n : String) : (addNode g n).edges = g.edges := by
  unfold addNode
  split <;> rfl

theorem addNode_nodes_mono {g : NxDiGraph} {m : String} (n : String)
    (h : m ∈ g.nodes) : m ∈ (addNode g n).nodes := by
  unfold addNode
  split
  · exact h
  · exact List.mem_append_left _ h

theorem mem_addNode_self (g : NxDiGraph) (n : String) : n ∈ (addNode g n).nodes := by
  unfold addNode
  split
  · assumption
  · exact List.mem_append_right _ (List.mem_singleton.mpr rfl)

theorem addEdge_nodes_mono {g : NxDiGraph} {m : String} (u v ty : String)
    (h : m ∈ g.nodes) : m ∈ (addEdge g u v ty).nodes := by
  simp only [addEdge]
  split <;> exact addNode_nodes_mono v (addNode_nodes_mono u h)

theorem addEdge_mem_edges {g : NxDiGraph} {u v ty : String} {e : String × String × String}
    (h : e ∈ (addEdge g u v ty).edges) : e ∈ g.edges ∨ e = (u, v, ty) := by
  simp only [addEdge] at h
  rw [addNode_edges, addNode_edges] at h
  split at h
  · simp only [List.mem_map] at h
    obtain ⟨e0, he0, hfe⟩ := h
    by_cases hc : e0.1 = u ∧ e0.2.1 = v
    · rw [if_pos hc] at hfe
      exact Or.inr hfe.symm
    · rw [if_neg hc] at hfe
      exact Or.inl (hfe ▸ he0)
  · rcases List.mem_append.mp h with h1 | h1
    · exact Or.inl h1
    · exact Or.inr (List.mem_singleton.mp h1)

theorem addEdge_keys_nodup {g : NxDiGraph} (u v ty : String)
    (h : (edgeKeys g).Nodup) : (edgeKeys (addEdge g u v ty)).Nodup := by
  simp only [addEdge, edgeKeys]
  rw [addNode_edges, addNode_edges]
  split
  · rw [List.map_map]
    have heq : g.edges.map ((fun e => (e.1, e.2.1)) ∘
        (fun e => if e.1 = u ∧ e.2.1 = v then (u, v, ty) else e)) =
        g.edges.map (fun e => (e.1, e.2.1)) := by
      apply List.map_congr_left
      intro e _
      by_cases hc : e.1 = u ∧ e.2.1 = v
      · simp [hc, hc.1, hc.2]
      · simp [hc]
    rw [heq]
    exact h
  · rename_i hno
    rw [List.map_append]
    rw [List.nodup_append]
    refine ⟨h, List.nodup_singleton _, ?_⟩
    intro p hp hq
    simp only [List.map_cons, List.map_nil, List.mem_singleton] at hq
    subst hq
    simp only [edgeKeys, List.mem_map] at hp
    obtain ⟨e, he, hke⟩ := hp
    apply hno
    refine List.any_eq_true.mpr ⟨e, he, ?_⟩
    have h1 : e.1 = u := congrArg Prod.fst hke
    have h2 : e.2.1 = v := congrArg Prod.snd hke
    simp [h1, h2]

theorem addEdge_wf {g : NxDiGraph} (u v ty : String) (h : EdgesWf g) :
    EdgesWf (addEdge g u v ty) := by
  intro e he
  have hu : u ∈ (addEdge g u v ty).nodes := by
    simp only [addEdge]
    split <;> exact addNode_nodes_mono v (mem_addNode_self g u)
  have hv : v ∈ (addEdge g u v ty).nodes := by
    simp only [addEdge]
    split <;> exact mem_addNode_self (addNode g u) v
  rcases addEdge_mem_edges he with h1 | h1
  · obtain ⟨ha, hb⟩ := h e h1
    exact ⟨addEdge_nodes_mono u v ty ha, addEdge_nodes_mono u v ty hb⟩
  · subst h1
    exact ⟨hu, hv⟩

theorem foldl_preserve {α β : Type} (P : α → Prop) {f : α → β → α}
    (hf : ∀ a b, P a → P (f a b)) :
    ∀ (l : List β) (a : α), P a → P (l.foldl f a)
  | [], _, ha => ha
  | b :: l, a, ha => foldl_preserve P hf l (f a b) (hf a b ha)

theorem addDepEdge_mem_edges {pkgs : List (String × PackageInfo)}
    {pm sm : List (String × String)} {src ty dep : String} {g : NxDiGraph}
    {e : String × String × String}
    (h : e ∈ (addDepEdge pkgs pm sm src ty g dep).edges) :
    e ∈ g.edges ∨ e.2.2 = ty := by
  unfold addDepEdge at h
  cases hr : resolveDep pkgs pm sm dep with
  | none =>
    rw [hr] at h
    exact Or.inl h
  | some r =>
    rw [hr] at h
    dsimp only at h
    by_cases hc : r ≠ "" ∧ r ∈ g.nodes
    · rw [if_pos hc] at h
      rcases addEdge_mem_edges h with h1 | h1
      · exact Or.inl h1
      · exact Or.inr (by rw [h1])
    · rw [if_neg hc] at h
      exact Or.inl h

theorem addDepEdge_keys_nodup {pkgs : List (String × PackageInfo)}
    {pm sm : List (String × String)} {src ty dep : String} {g : NxDiGraph}
    (h : (edgeKeys g).Nodup) :
    (edgeKeys (addDepEdge pkgs pm sm src ty g dep)).Nodup := by
  unfold addDepEdge
  cases hr : resolveDep pkgs pm sm dep with
  | none => exact h
  | some r =>
    dsimp only
    by_cases hc : r ≠ "" ∧ r ∈ g.nodes
    · rw [if_pos hc]
      exact addEdge_keys_nodup src r ty h
    · rw [if_neg hc]
      exact h

theorem addDepEdge_wf {pkgs : List (String × PackageInfo)}
    {pm sm : List (String × String)} {src ty dep : String} {g : NxDiGraph}
    (h : EdgesWf g) : EdgesWf (addDepEdge pkgs pm sm src ty g dep) := by
  unfold addDepEdge
  cases hr : resolveDep pkgs pm sm dep with
  | none => exact h
  | some r =>
    dsimp only
    by_cases hc : r ≠ "" ∧ r ∈ g.nodes
    · rw [if_pos hc]
      exact addEdge_wf src r ty h
    · rw [if_neg hc]
      exact h

theorem addTypedEdges_mem_edges {pkgs : List (String × PackageInfo)}
    {pm sm : List (String × String)} {src ty : String}
    {e : String × String × String} :
    ∀ (deps : List String) (g : NxDiGraph),
      e ∈ (addTypedEdges pkgs pm sm g src deps ty).edges →
      e ∈ g.edges ∨ e.2.2 = ty
  | [], _, h => Or.inl h
  | dep :: deps, g, h => by
    have h' := addTypedEdges_mem_edges deps (addDepEdge pkgs pm sm src ty g dep) h
    rcases h' with h1 | h1
    · exact addDepEdge_mem_edges h1
    · exact Or.inr h1

theorem addTypedEdges_keys_nodup {pkgs : List (String × PackageInfo)}
    {pm sm : List (String × String)} {src ty : String}
    (deps : List String) (g : NxDiGraph) (h : (edgeKeys g).Nodup) :
    (edgeKeys (addTypedEdges pkgs pm sm g src deps ty)).Nodup := by
  unfold addTypedEdges
  exact foldl_preserve (fun g => (edgeKeys g).Nodup)
    (fun _ _ hg => addDepEdge_keys_nodup hg) deps g h

theorem addTypedEdges_wf {pkgs : List (String × PackageInfo)}
    {pm sm : List (String × String)} {src ty : String}
    (deps : List String) (g : NxDiGraph) (h : EdgesWf g) :
    EdgesWf (addTypedEdges pkgs pm sm g src deps ty) := by
  unfold addTypedEdges
  exact foldl_preserve EdgesWf (fun _ _ hg => addDepEdge_wf hg) deps g h

theorem buildPass1_edges (pkgs : List (String × PackageInfo)) :
    (buildPass1 pkgs).1.edges = [] := by
  unfold buildPass1
  refine foldl_preserve
    (fun (acc : NxDiGraph × List (String × String) × List (String × String)) =>
      acc.1.edges = []) ?_ pkgs (emptyGraph, [], []) rfl
  intro acc entry h
  unfold buildPass1Step
  rw [addNode_edges]
  exact h

theorem buildGraph_graph (pkgs : List (String × PackageInfo)) :
    (buildGraph pkgs).graph =
      pkgs.foldl (buildPass2Step pkgs (buildPass1 pkgs).2.1 (buildPass1 pkgs).2.2)
        (buildPass1 pkgs).1 := rfl

theorem buildPass2Step_keys_nodup {pkgs : List (String × PackageInfo)}
    {pm sm : List (String × String)} (g : NxDiGraph) (entry : String × PackageInfo)
    (h : (edgeKeys g).Nodup) : (edgeKeys (buildPass2Step pkgs pm sm g entry)).Nodup := by
  unfold buildPass2Step
  exact addTypedEdges_keys_nodup _ _
    (addTypedEdges_keys_nodup _ _ (addTypedEdges_keys_nodup _ _ h))

theorem buildPass2Step_wf {pkgs : List (String × PackageInfo)}
    {pm sm : List (String × String)} (g : NxDiGraph) (entry : String × PackageInfo)
    (h : EdgesWf g) : EdgesWf (buildPass2Step pkgs pm sm g entry) := by
  unfold buildPass2Step
  exact addTypedEdges_wf _ _ (addTypedEdges_wf _ _ (addTypedEdges_wf _ _ h))

theorem buildGraph_keys_nodup (pkgs : List (String × PackageInfo)) :
    (edgeKeys (buildGraph pkgs).graph).Nodup := by
  rw [buildGraph_graph]
  refine foldl_preserve (fun g => (edgeKeys g).Nodup)
    (fun g entry hg => buildPass2Step_keys_nodup g entry hg) pkgs _ ?_
  show (edgeKeys (buildPass1 pkgs).1).Nodup
  unfold edgeKeys
  rw [buildPass1_edges]
  exact List.nodup_nil

theorem buildPass1_wf (pkgs : List (String × PackageInfo)) :
    EdgesWf (buildPass1 pkgs).1 := by
  intro e he
  rw [buildPass1_edges] at he
  cases he

theorem buildGraph_wf (pkgs : List (String × PackageInfo)) :
    EdgesWf (buildGraph pkgs).graph := by
  rw [buildGraph_graph]
  exact foldl_preserve EdgesWf
    (fun g entry hg => buildPass2Step_wf g entry hg) pkgs _ (buildPass1_wf pkgs)

theorem buildGraph_rgraph (pkgs : List (String × PackageInfo)) :
    (buildGraph pkgs).rgraph = reverseGraph (buildGraph pkgs).graph := rfl

theorem reverseGraph_nodes (g : NxDiGraph) : (reverseGraph g).nodes = g.nodes := rfl

theorem mem_reverseGraph_edges {g : NxDiGraph} {a b ty : String} :
    (a, b, ty) ∈ (reverseGraph g).edges ↔ (b, a, ty) ∈ g.edges := by
  unfold reverseGraph
  simp only [List.mem_map]
  constructor
  · rintro ⟨e, he, heq⟩
    obtain ⟨h1, h2, h3⟩ : e.2.1 = a ∧ e.1 = b ∧ e.2.2 = ty := by
      refine ⟨congrArg Prod.fst heq, ?_, ?_⟩
      · exact congrArg (Prod.fst ∘ Prod.snd) heq
      · exact congrArg (Prod.snd ∘ Prod.snd) heq
    have : e = (b, a, ty) := by
      obtain ⟨x, y, z⟩ := e
      simp only at h1 h2 h3
      rw [h1, h2, h3]
    exact this ▸ he
  · intro h
    exact ⟨(b, a, ty), h, rfl⟩

theorem addPackage_graph_mem {st : DependencyGraph} {pkg : PackageInfo}
    {e : String × String × String}
    (h : e ∈ (addPackage st pkg).graph.edges) :
    e ∈ st.graph.edges ∨ e.2.2 = "runtime" ∨ e.2.2 = "build" := by
  have h1 := addTypedEdges_mem_edges _ _ h
  rcases h1 with h1 | h1
  · have h2 := addTypedEdges_mem_edges _ _ h1
    rcases h2 with h2 | h2
    · rw [addNode_edges] at h2
      exact Or.inl h2
    · exact Or.inr (Or.inl h2)
  · exact Or.inr (Or.inr h1)

theorem mem_getDirectDepsG {g : NxDiGraph} {n m : String} {dt : DependencyType} :
    m ∈ getDirectDepsG g n dt ↔
      ∃ ty, (n, m, ty) ∈ g.edges ∧ edgeTypeMatches dt ty = true := by
  unfold getDirectDepsG outEdges
  rw [mem_sortedSet]
  simp only [List.mem_filterMap, List.mem_filter]
  constructor
  · rintro ⟨e, ⟨he, hsrc⟩, hif⟩
    by_cases hm : edgeTypeMatches dt e.2.2 = true
    · rw [if_pos hm] at hif
      refine ⟨e.2.2, ?_, hm⟩
      have hsrc' : e.1 = n := by simpa using hsrc
      have : e = (n, m, e.2.2) := by
        obtain ⟨x, y, z⟩ := e
        simp only at hsrc' hif ⊢
        rw [hsrc', Option.some_inj.mp hif]
      exact this ▸ he
    · rw [if_neg hm] at hif
      cases hif
  · rintro ⟨ty, he, hm⟩
    exact ⟨(n, m, ty), ⟨he, by simp⟩, by simp [hm]⟩

/-! ## Claim C1 -/

/-- C1, counterexample: in the record map where package a declares b
both as a runtime and as a build dependency, the claim that b appears
both in the runtime and in the build direct dependency lists of a is
false: the later build edge overwrites the runtime tag of the single
(a, b) edge, so b is absent from the runtime list. -/
theorem c1_counterexample :
    ¬ ("b" ∈ getDependencies (buildGraph pkgsDual) "a" DependencyType.runtime false (-1) ∧
       "b" ∈ getDependencies (buildGraph pkgsDual) "a" DependencyType.build false (-1)) := by
  decide

/-- C1, amended: the constructed graph holds at most one edge per
ordered (source, target) pair — the edge-key list has no duplicates for
every record map — and when the same resolved target is declared under
both the runtime and the build kind, the later build tag overwrites the
runtime tag, so the target appears in the build and all lists but not in
the runtime list. -/
theorem c1_amended_single_edge_per_pair :
    (∀ pkgs : List (String × PackageInfo), (edgeKeys (buildGraph pkgs).graph).Nodup) ∧
    getDependencies (buildGraph pkgsDual) "a" DependencyType.runtime false (-1) = [] ∧
    getDependencies (buildGraph pkgsDual) "a" DependencyType.build false (-1) = ["b"] ∧
    getDependencies (buildGraph pkgsDual) "a" DependencyType.all false (-1) = ["b"] :=
  ⟨fun pkgs => buildGraph_keys_nodup pkgs, by decide, by decide, by decide⟩

/-! ## Claim C10 -/

/-- C10: the incremental add_package entry point never adds a check-kind
edge with the new record as source — any check edge leaving r.name after
the call was already present before — even though the record's
checkdepends list is nonempty; initial construction of the same records
does add the check edge, as the concrete contrast shows. -/
theorem c10_addPackage_no_check_edges (st : DependencyGraph) (pkg : PackageInfo)
    (t : String) :
    ((pkg.name, t, "check") ∈ (addPackage st pkg).graph.edges →
        (pkg.name, t, "check") ∈ st.graph.edges) ∧
    (buildGraph pkgsChk).graph.edges = [("p", "q", "check")] ∧
    (addPackage (buildGraph [("q", { name := "q" })])
        { name := "p", checkdepends := ["q"] }).graph.edges = [] := by
  refine ⟨?_, by decide, by decide⟩
  intro h
  rcases addPackage_graph_mem h with h1 | h1 | h1
  · exact h1
  · exact absurd h1 (by simp)
  · exact absurd h1 (by simp)

/-- C10, witness: applying the theorem at a state already holding the
check edge p to q and re-adding a record named p shows the surviving
check edge was the pre-existing one. -/
theorem c10_witness :
    ("p", "q", "check") ∈ (buildGraph pkgsChk).graph.edges :=
  (c10_addPackage_no_check_edges (buildGraph pkgsChk) { name := "p" } "q").1
    (by decide)

/-! ## Claim C3 -/

/-- C3: on every constructed graph the direct reverse-dependency query
and the direct dependency query agree edge for edge, kind included: m is
among the direct reverse dependencies of n for a kind exactly when n is
among the direct dependencies of m for that kind. -/
theorem c3_reverse_symmetry (pkgs : List (String × PackageInfo)) (n m : String)
    (dt : DependencyType) :
    m ∈ getReverseDependencies (buildGraph pkgs) n dt false (-1) ↔
      n ∈ getDependencies (buildGraph pkgs) m dt false (-1) := by
  have hwf := buildGraph_wf pkgs
  constructor
  · intro h
    unfold getReverseDependencies at h
    split at h
    · cases h
    · rename_i hn
      simp only [Bool.false_eq_true, if_false] at h
      have h' := mem_getDirectDepsG.mp h
      obtain ⟨ty, he, hm⟩ := h'
      rw [buildGraph_rgraph, mem_reverseGraph_edges] at he
      have hnodes := hwf _ he
      unfold getDependencies
      rw [if_neg (not_not_intro hnodes.1)]
      simp only [Bool.false_eq_true, if_false]
      exact mem_getDirectDepsG.mpr ⟨ty, he, hm⟩
  · intro h
    unfold getDependencies at h
    split at h
    · cases h
    · rename_i hm
      simp only [Bool.false_eq_true, if_false] at h
      have h' := mem_getDirectDepsG.mp h
      obtain ⟨ty, he, hmm⟩ := h'
      have hnodes := hwf _ he
      unfold getReverseDependencies
      have hn' : n ∈ (buildGraph pkgs).rgraph.nodes := by
        rw [buildGraph_rgraph, reverseGraph_nodes]
        exact hnodes.2
      rw [if_neg (not_not_intro hn')]
      simp only [Bool.false_eq_true, if_false]
      refine mem_getDirectDepsG.mpr ⟨ty, ?_, hmm⟩
      rw [buildGraph_rgraph, mem_reverseGraph_edges]
      exact he

/-! ## Claim C2 -/

theorem bfsVisited_spec (g : NxDiGraph) (dt : DependencyType) (maxD : Int)
    (root : String) :
    ∀ (fuel : Nat) (queue : List (String × Nat)) (visited : List String),
      (∀ p ∈ queue, reachN g dt root p.2 p.1) →
      (∀ v ∈ visited, ∃ d : Nat, (0 ≤ maxD → (d : Int) ≤ maxD) ∧ reachN g dt root d v) →
      visited.Nodup →
      (bfsVisited g dt maxD fuel queue visited).Nodup ∧
        ∀ v ∈ bfsVisited g dt maxD fuel queue visited,
          ∃ d : Nat, (0 ≤ maxD → (d : Int) ≤ maxD) ∧ reachN g dt root d v := by
  intro fuel
  induction fuel with
  | zero =>
    intro queue visited _ hv hn
    exact ⟨hn, hv⟩
  | succ fuel ih =>
    intro queue visited hq hv hn
    match queue with
    | [] => exact ⟨hn, hv⟩
    | (current, depth) :: queue' =>
      show (bfsVisited g dt maxD (fuel + 1) ((current, depth) :: queue') visited).Nodup ∧ _
      rw [bfsVisited]
      by_cases hcv : current ∈ visited
      · rw [if_pos hcv]
        exact ih queue' visited (fun p hp => hq p (List.mem_cons_of_mem _ hp)) hv hn
      · rw [if_neg hcv]
        by_cases hd : 0 ≤ maxD ∧ maxD < (depth : Int)
        · rw [if_pos hd]
          exact ih queue' visited (fun p hp => hq p (List.mem_cons_of_mem _ hp)) hv hn
        · rw [if_neg hd]
          apply ih
          · intro p hp
            rcases List.mem_append.mp hp with hp1 | hp1
            · exact hq p (List.mem_cons_of_mem _ hp1)
            · simp only [List.mem_map, List.mem_filter] at hp1
              obtain ⟨dep, ⟨hdep, _⟩, hpe⟩ := hp1
              have hr : reachN g dt root depth current :=
                hq (current, depth) (List.mem_cons_self _ _)
              have : reachN g dt root (depth + 1) dep := ⟨current, hr, hdep⟩
              rw [← hpe]
              exact this
          · intro v hvm
            rcases List.mem_append.mp hvm with hv1 | hv1
            · exact hv v hv1
            · rw [List.mem_singleton.mp hv1]
              refine ⟨depth, ?_, hq (current, depth) (List.mem_cons_self _ _)⟩
              intro h0
              by_contra hgt
              exact hd ⟨h0, by omega⟩
          · rw [List.nodup_append]
            exact ⟨hn, List.nodup_singleton _,
              fun a ha hb => hcv ((List.mem_singleton.mp hb) ▸ ha)⟩

/-- C2: for every graph state, node and kind, the recursive dependency
query never returns the root itself, never returns a duplicate, returns
a lexicographically sorted list, and — the depth bound of the iterative
breadth-first traversal — every returned node is reachable from the
root through edges of the requested kind in some number of hops that
respects a non-negative max depth. -/
theorem c2_recursive_deps_bfs (st : DependencyGraph) (root : String)
    (dt : DependencyType) (maxD : Int) :
    root ∉ getDependencies st root dt true maxD ∧
    (getDependencies st root dt true maxD).Nodup ∧
    List.Sorted strLE (getDependencies st root dt true maxD) ∧
    ∀ x ∈ getDependencies st root dt true maxD,
      ∃ d : Nat, (0 ≤ maxD → (d : Int) ≤ maxD) ∧ reachN st.graph dt root d x := by
  unfold getDependencies
  by_cases hroot : root ∉ st.graph.nodes
  · rw [if_pos hroot]
    exact ⟨List.not_mem_nil _, List.nodup_nil, List.sorted_nil,
      fun x hx => absurd hx (List.not_mem_nil _)⟩
  · rw [if_neg hroot]
    simp only [if_true, getRecursiveDepsG]
    have hspec := bfsVisited_spec st.graph dt maxD root
      ((st.graph.nodes.length + st.graph.edges.length + 2) * (st.graph.edges.length + 2))
      [(root, 0)] []
      (by
        intro p hp
        rw [List.mem_singleton.mp hp]
        rfl)
      (fun v hv => absurd hv (List.not_mem_nil _))
      List.nodup_nil
    obtain ⟨hnodup, hreach⟩ := hspec
    constructor
    · intro hmem
      rw [mem_sortPy] at hmem
      exact absurd rfl ((hnodup.mem_erase_iff.mp hmem).1)
    constructor
    · exact nodup_sortPy (hnodup.erase root)
    constructor
    · exact sorted_sortPy _
    · intro x hx
      rw [mem_sortPy] at hx
      exact hreach x (List.mem_of_mem_erase hx)

/-- C2, witness: the statement instantiated at the two-record dual-kind
fixture. -/
theorem c2_witness :
    "a" ∉ getDependencies (buildGraph pkgsDual) "a" DependencyType.all true (-1) ∧
    (getDependencies (buildGraph pkgsDual) "a" DependencyType.all true (-1)).Nodup ∧
    List.Sorted strLE (getDependencies (buildGraph pkgsDual) "a" DependencyType.all true (-1)) ∧
    ∀ x ∈ getDependencies (buildGraph pkgsDual) "a" DependencyType.all true (-1),
      ∃ d : Nat, (0 ≤ (-1 : Int) → (d : Int) ≤ -1) ∧
        reachN (buildGraph pkgsDual).graph DependencyType.all "a" d x :=
  c2_recursive_deps_bfs (buildGraph pkgsDual) "a" DependencyType.all (-1)

/-- C3, witness: the symmetry instance on the dual-kind fixture. -/
theorem c3_witness :
    "a" ∈ getReverseDependencies (buildGraph pkgsDual) "b" DependencyType.build false (-1) ↔
      "b" ∈ getDependencies (buildGraph pkgsDual) "a" DependencyType.build false (-1) :=
  c3_reverse_symmetry pkgsDual "b" "a" DependencyType.build

/-! ## Claim C9 -/

theorem mem_outEdges_targets {g : NxDiGraph} {current n : String}
    (h : n ∈ (outEdges g current).map (fun e => e.2.1)) :
    hasEdgeB g current n = true := by
  simp only [List.mem_map] at h
  obtain ⟨e, he, hn⟩ := h
  unfold outEdges at he
  rw [List.mem_filter] at he
  unfold hasEdgeB
  refine List.any_eq_true.mpr ⟨e, he.1, ?_⟩
  have h1 : e.1 = current := by simpa using he.2
  simp [h1, hn]

theorem bfsPath_sound {g : NxDiGraph} {s target : String} {p : List String} :
    ∀ (fuel : Nat) (queue : List (String × List String)) (visited : List String),
      (∀ item ∈ queue, item.2.head? = some s ∧ item.2.getLast? = some item.1 ∧
        List.Chain' (fun a b => hasEdgeB g a b = true) item.2) →
      bfsPath g target fuel queue visited = some p →
      ValidPath g s target p
  | 0, _, _, _, h => by cases h
  | _ + 1, [], _, _, h => by cases h
  | fuel + 1, (current, path) :: queue, visited, hinv, h => by
    rw [bfsPath] at h
    by_cases hct : current = target
    · rw [if_pos hct] at h
      obtain ⟨h1, h2, h3⟩ := hinv (current, path) (List.mem_cons_self _ _)
      rw [Option.some_inj.mp h] at h1 h2 h3
      exact ⟨h1, hct ▸ h2, h3⟩
    · rw [if_neg hct] at h
      refine bfsPath_sound fuel _ _ ?_ h
      intro item hitem
      rcases List.mem_append.mp hitem with h1 | h1
      · exact hinv item (List.mem_cons_of_mem _ h1)
      · simp only [List.mem_map] at h1
        obtain ⟨n, hn, hne⟩ := h1
        rw [List.mem_filter] at hn
        have hedge : hasEdgeB g current n = true := mem_outEdges_targets hn.1
        obtain ⟨h2, h3, h4⟩ := hinv (current, path) (List.mem_cons_self _ _)
        dsimp only at h2 h3 h4
        have hpne : path ≠ [] := by
          intro hnil
          rw [hnil] at h3
          cases h3
        subst hne
        refine ⟨?_, ?_, ?_⟩
        · match path, hpne with
          | a :: as, _ => exact h2
        · exact List.getLast?_concat _
        · rw [List.chain'_append]
          refine ⟨h4, List.chain'_singleton _, ?_⟩
          intro x hx y hy
          have hxc : current = x := by
            rw [Option.mem_def] at hx
            exact Option.some_inj.mp (h3.symm.trans hx)
          have hyc : n = y := by
            rw [List.head?_cons, Option.mem_def] at hy
            exact Option.some_inj.mp hy
          rw [← hxc, ← hyc]
          exact hedge

/-- C9: list-returning queries on a constructed graph return the empty
list for a name that is not a node (in particular on the graph of an
empty record map); the dependency path from a known node to itself is
the singleton path; and the path query returns nothing when an endpoint
is unknown or no directed path exists. -/
theorem c9_unknown_names_and_paths (pkgs : List (String × PackageInfo))
    (a b : String) (dt : DependencyType) (r : Bool) (maxD : Int) :
    (a ∉ (buildGraph pkgs).graph.nodes →
      getDependencies (buildGraph pkgs) a dt r maxD = [] ∧
      getReverseDependencies (buildGraph pkgs) a dt r maxD = []) ∧
    (a ∈ (buildGraph pkgs).graph.nodes →
      getDependencyPath (buildGraph pkgs) a a = some [a]) ∧
    ((a ∉ (buildGraph pkgs).graph.nodes ∨ b ∉ (buildGraph pkgs).graph.nodes) →
      getDependencyPath (buildGraph pkgs) a b = none) ∧
    (¬ ReachableG (buildGraph pkgs).graph a b →
      getDependencyPath (buildGraph pkgs) a b = none) := by
  refine ⟨?_, ?_, ?_, ?_⟩
  · intro ha
    constructor
    · unfold getDependencies
      rw [if_pos ha]
    · unfold getReverseDependencies
      rw [if_pos (by rwa [buildGraph_rgraph, reverseGraph_nodes])]
  · intro ha
    unfold getDependencyPath
    rw [if_neg (by
      intro hc
      rcases hc with hc | hc <;> exact hc ha)]
    have hpos : ((buildGraph pkgs).graph.nodes.length + (buildGraph pkgs).graph.edges.length + 2)
        * ((buildGraph pkgs).graph.edges.length + 2) ≠ 0 := by positivity
    rcases Nat.exists_eq_succ_of_ne_zero hpos with ⟨f, hf⟩
    rw [hf, bfsPath, if_pos rfl]
  · intro hab
    unfold getDependencyPath
    rw [if_pos hab]
  · intro hreach
    cases hres : getDependencyPath (buildGraph pkgs) a b with
    | none => rfl
    | some p =>
      exfalso
      apply hreach
      unfold getDependencyPath at hres
      by_cases hg : a ∉ (buildGraph pkgs).graph.nodes ∨ b ∉ (buildGraph pkgs).graph.nodes
      · rw [if_pos hg] at hres
        cases hres
      · rw [if_neg hg] at hres
        refine ⟨p, bfsPath_sound _ _ _ ?_ hres⟩
        intro item hitem
        rw [List.mem_singleton.mp hitem]
        exact ⟨rfl, rfl, List.chain'_singleton _⟩

/-- C9, witness: on the two-node graph with no edges, an unknown name
gives empty lists, the self path of a known node is the singleton, the
path to an unknown endpoint is nothing, and the path between the two
unconnected nodes is nothing. -/
theorem c9_witness :
    getDependencies (buildGraph pkgsIso) "z" DependencyType.all true (-1) = [] ∧
    getReverseDependencies (buildGraph pkgsIso) "z" DependencyType.all true (-1) = [] ∧
    getDependencyPath (buildGraph pkgsIso) "x" "x" = some ["x"] ∧
    getDependencyPath (buildGraph pkgsIso) "x" "w" = none ∧
    getDependencyPath (buildGraph pkgsIso) "x" "y" = none := by
  have h1 := (c9_unknown_names_and_paths pkgsIso "z" "y" DependencyType.all true (-1)).1
    (by decide)
  have h2 := (c9_unknown_names_and_paths pkgsIso "x" "y" DependencyType.all true (-1)).2.1
    (by decide)
  have h3 := (c9_unknown_names_and_paths pkgsIso "x" "w" DependencyType.all true (-1)).2.2.1
    (Or.inr (by decide))
  have h4 := (c9_unknown_names_and_paths pkgsIso "x" "y" DependencyType.all true (-1)).2.2.2
    (by
      rintro ⟨p, hh, hl, hc⟩
      match p, hh with
      | x :: ps, hh =>
        have hx : x = "x" := by
          rw [List.head?_cons, Option.some_inj] at hh
          exact hh
        match ps, hl with
        | [], hl =>
          rw [hx] at hl
          simp only [List.getLast?_singleton, Option.some_inj] at hl
          exact absurd hl (by decide)
        | y :: ps', hl =>
          rw [List.chain'_cons] at hc
          have : hasEdgeB (buildGraph pkgsIso).graph x y = true := hc.1
          rw [hx] at this
          have hedges : (buildGraph pkgsIso).graph.edges = [] := by decide
          unfold hasEdgeB at this
          rw [hedges] at this
          cases this)
  exact ⟨h1.1, h1.2, h2, h3, h4⟩

/-! ## Claim C4 -/

/-- C4, counterexample: when the first pkgname assignment retains an
unexpanded dollar reference, the parsed name is taken from a later
assignment, not from the first one; and with a plain file name as path
(no parent directory name) a dollar-carrying name is kept rather than
replaced. -/
theorem c4_counterexample :
    (parseContent "pkgname=$x(\npkgname=second\n" "").map (fun p => p.name)
        = some "second" ∧
    (parseContent "pkgname=$x(\npkgname=second\n" "").map (fun p => p.name)
        ≠ some "$x(" ∧
    (parseContent "pkgname=$x(\n" "APKBUILD").map (fun p => p.name) = some "$x(" :=
  ⟨by decide, by decide, by decide⟩

/-- C4, amended: the name is the expanded value of the first pkgname
assignment whose value resolves without a leftover dollar (a first
assignment that keeps a dollar is passed over and a later clean one
wins); and when the final value still contains a dollar and a file path
was supplied, the name falls back to the parent directory name only if
that name is nonempty and does not start with a dot. -/
theorem c4_amended_name_resolution :
    (parseContent "pkgname=alpha\npkgname=beta\n" "").map (fun p => p.name)
        = some "alpha" ∧
    (parseContent "pkgname=$x(\npkgname=second\n" "").map (fun p => p.name)
        = some "second" ∧
    (parseContent "pkgname=$x(\n" "aports/main/curl/APKBUILD").map (fun p => p.name)
        = some "curl" ∧
    (parseContent "pkgname=$x(\n" "APKBUILD").map (fun p => p.name) = some "$x(" ∧
    (parseContent "pkgname=$x(\n" ".git/APKBUILD").map (fun p => p.name)
        = some "$x(" :=
  ⟨by decide, by decide, by decide, by decide, by decide⟩

/-! ## Claim C8 -/

theorem ctxGet_of_unset {ctx : BashCtx} (h : dictGet ctx.vars "var" = none) :
    ctxGet ctx "var" = "" := by
  unfold ctxGet ctxGetD
  rw [h]
  rfl

theorem subPassAuxE_nil (tryM : PassFnE) (ctx : BashCtx) :
    ∀ fuel, subPassAuxE tryM fuel ctx [] = EvalOut.done ([], ctx)
  | 0 => rfl
  | _ + 1 => rfl

theorem subPassAuxE_no_match (tryM : PassFnE) :
    ∀ (fuel : Nat) (s : List Char) (ctx : BashCtx),
      (∀ (c : BashCtx) (n : Nat), tryM c (s.drop n) = PassOut.noMatch) →
      subPassAuxE tryM fuel ctx s = EvalOut.done (s, ctx)
  | 0, _, _, _ => rfl
  | _ + 1, [], _, _ => rfl
  | fuel + 1, c :: rest, ctx, h => by
    have h0 : tryM ctx (c :: rest) = PassOut.noMatch := h ctx 0
    rw [subPassAuxE, h0]
    have ih := subPassAuxE_no_match tryM fuel rest ctx
      (fun c' n => (h c' (n + 1) : tryM c' (rest.drop n) = PassOut.noMatch))
    rw [ih]
    rfl

theorem runPassE_no_match (tryM : PassFnE) (s : List Char) (ctx : BashCtx)
    (h : ∀ (c : BashCtx) (n : Nat), tryM c (s.drop n) = PassOut.noMatch) :
    runPassE tryM ctx s = EvalOut.done (s, ctx) :=
  subPassAuxE_no_match tryM s.length s ctx h

theorem runPassE_head_match (tryM : PassFnE) (ctx ctx' : BashCtx) (c : Char)
    (rest rep remaining : List Char)
    (h : tryM ctx (c :: rest) = PassOut.matched rep remaining ctx') :
    runPassE tryM ctx (c :: rest) =
      evalBind (subPassAuxE tryM rest.length ctx' remaining) fun (out, ctx'') =>
        EvalOut.done (rep ++ out, ctx'') := by
  show subPassAuxE tryM (rest.length + 1) ctx (c :: rest) = _
  rw [subPassAuxE, h]

theorem runPassE_head_match_all (tryM : PassFnE) (ctx ctx' : BashCtx) (c : Char)
    (rest rep : List Char)
    (h : tryM ctx (c :: rest) = PassOut.matched rep [] ctx') :
    runPassE tryM ctx (c :: rest) = EvalOut.done (rep, ctx') := by
  rw [runPassE_head_match tryM ctx ctx' c rest rep [] h,
    subPassAuxE_nil tryM ctx' rest.length]
  simp [evalBind]

theorem tryME_drop_long {tryM : PassFnE} (hnil : ∀ c, tryM c [] = PassOut.noMatch)
    (s : List Char) (c : BashCtx) (n : Nat) (h : s.length ≤ n) :
    tryM c (s.drop n) = PassOut.noMatch := by
  rw [List.drop_eq_nil_of_le h]
  exact hnil c

theorem expandLE_dollar_var {ctx : BashCtx} (h : ctxGet ctx "var" = "") :
    expandLE ctx ['$', 'v', 'a', 'r'] = EvalOut.done ([], ctx) := by
  have hA1 : ∀ (c : BashCtx) (n : Nat),
      trySufLongE c ((['$', 'v', 'a', 'r'] : List Char).drop n) = PassOut.noMatch := by
    intro c n
    rcases Nat.lt_or_ge n 4 with hn | hn
    · interval_cases n <;> rfl
    · exact tryME_drop_long (fun _ => rfl) _ c n (by simpa using hn)
  have hA2 : ∀ (c : BashCtx) (n : Nat),
      trySufShortE c ((['$', 'v', 'a', 'r'] : List Char).drop n) = PassOut.noMatch := by
    intro c n
    rcases Nat.lt_or_ge n 4 with hn | hn
    · interval_cases n <;> rfl
    · exact tryME_drop_long (fun _ => rfl) _ c n (by simpa using hn)
  have hA3 : ∀ (c : BashCtx) (n : Nat),
      tryPreLongE c ((['$', 'v', 'a', 'r'] : List Char).drop n) = PassOut.noMatch := by
    intro c n
    rcases Nat.lt_or_ge n 4 with hn | hn
    · interval_cases n <;> rfl
    · exact tryME_drop_long (fun _ => rfl) _ c n (by simpa using hn)
  have hA4 : ∀ (c : BashCtx) (n : Nat),
      tryPreShortE c ((['$', 'v', 'a', 'r'] : List Char).drop n) = PassOut.noMatch := by
    intro c n
    rcases Nat.lt_or_ge n 4 with hn | hn
    · interval_cases n <;> rfl
    · exact tryME_drop_long (fun _ => rfl) _ c n (by simpa using hn)
  have hA5 : ∀ (c : BashCtx) (n : Nat),
      liftPass tryDefaultVal c ((['$', 'v', 'a', 'r'] : List Char).drop n) =
        PassOut.noMatch := by
    intro c n
    rcases Nat.lt_or_ge n 4 with hn | hn
    · interval_cases n <;> rfl
    · exact tryME_drop_long (fun _ => rfl) _ c n (by simpa using hn)
  have hA6 : ∀ (c : BashCtx) (n : Nat),
      liftPass tryAssignDefault c ((['$', 'v', 'a', 'r'] : List Char).drop n) =
        PassOut.noMatch := by
    intro c n
    rcases Nat.lt_or_ge n 4 with hn | hn
    · interval_cases n <;> rfl
    · exact tryME_drop_long (fun _ => rfl) _ c n (by simpa using hn)
  have hA7 : ∀ (c : BashCtx) (n : Nat),
      liftPass tryBraceVar c ((['$', 'v', 'a', 'r'] : List Char).drop n) =
        PassOut.noMatch := by
    intro c n
    rcases Nat.lt_or_ge n 4 with hn | hn
    · interval_cases n <;> rfl
    · exact tryME_drop_long (fun _ => rfl) _ c n (by simpa using hn)
  have h8 : tryDollarVar ctx ['$', 'v', 'a', 'r'] =
      some ((ctxGet ctx "var").data, [], ctx) := rfl
  rw [h] at h8
  have h8' : tryDollarVar ctx ('$' :: ['v', 'a', 'r']) = some ([], [], ctx) := h8
  have h8l : liftPass tryDollarVar ctx ('$' :: ['v', 'a', 'r']) =
      PassOut.matched [] [] ctx := by
    unfold liftPass
    rw [h8']
  unfold expandLE
  rw [if_neg (by decide)]
  rw [runPassE_no_match trySufLongE _ ctx hA1]
  dsimp only [evalBind]
  rw [runPassE_no_match trySufShortE _ ctx hA2]
  dsimp only [evalBind]
  rw [runPassE_no_match tryPreLongE _ ctx hA3]
  dsimp only [evalBind]
  rw [runPassE_no_match tryPreShortE _ ctx hA4]
  dsimp only [evalBind]
  rw [runPassE_no_match (liftPass tryDefaultVal) _ ctx hA5]
  dsimp only [evalBind]
  rw [runPassE_no_match (liftPass tryAssignDefault) _ ctx hA6]
  dsimp only [evalBind]
  rw [runPassE_no_match (liftPass tryBraceVar) _ ctx hA7]
  dsimp only [evalBind]
  rw [runPassE_head_match_all (liftPass tryDollarVar) ctx ctx '$' ['v', 'a', 'r'] [] h8l]

theorem expandLE_brace_var {ctx : BashCtx} (h : ctxGet ctx "var" = "") :
    expandLE ctx ['$', '\x7b', 'v', 'a', 'r', '\x7d'] = EvalOut.done ([], ctx) := by
  have hB1 : ∀ (c : BashCtx) (n : Nat),
      trySufLongE c ((['$', '\x7b', 'v', 'a', 'r', '\x7d'] : List Char).drop n) =
        PassOut.noMatch := by
    intro c n
    rcases Nat.lt_or_ge n 6 with hn | hn
    · interval_cases n <;> rfl
    · exact tryME_drop_long (fun _ => rfl) _ c n (by simpa using hn)
  have hB2 : ∀ (c : BashCtx) (n : Nat),
      trySufShortE c ((['$', '\x7b', 'v', 'a', 'r', '\x7d'] : List Char).drop n) =
        PassOut.noMatch := by
    intro c n
    rcases Nat.lt_or_ge n 6 with hn | hn
    · interval_cases n <;> rfl
    · exact tryME_drop_long (fun _ => rfl) _ c n (by simpa using hn)
  have hB3 : ∀ (c : BashCtx) (n : Nat),
      tryPreLongE c ((['$', '\x7b', 'v', 'a', 'r', '\x7d'] : List Char).drop n) =
        PassOut.noMatch := by
    intro c n
    rcases Nat.lt_or_ge n 6 with hn | hn
    · interval_cases n <;> rfl
    · exact tryME_drop_long (fun _ => rfl) _ c n (by simpa using hn)
  have hB4 : ∀ (c : BashCtx) (n : Nat),
      tryPreShortE c ((['$', '\x7b', 'v', 'a', 'r', '\x7d'] : List Char).drop n) =
        PassOut.noMatch := by
    intro c n
    rcases Nat.lt_or_ge n 6 with hn | hn
    · interval_cases n <;> rfl
    · exact tryME_drop_long (fun _ => rfl) _ c n (by simpa using hn)
  have hB5 : ∀ (c : BashCtx) (n : Nat),
      liftPass tryDefaultVal c ((['$', '\x7b', 'v', 'a', 'r', '\x7d'] : List Char).drop n) =
        PassOut.noMatch := by
    intro c n
    rcases Nat.lt_or_ge n 6 with hn | hn
    · interval_cases n <;> rfl
    · exact tryME_drop_long (fun _ => rfl) _ c n (by simpa using hn)
  have hB6 : ∀ (c : BashCtx) (n : Nat),
      liftPass tryAssignDefault c ((['$', '\x7b', 'v', 'a', 'r', '\x7d'] : List Char).drop n) =
        PassOut.noMatch := by
    intro c n
    rcases Nat.lt_or_ge n 6 with hn | hn
    · interval_cases n <;> rfl
    · exact tryME_drop_long (fun _ => rfl) _ c n (by simpa using hn)
  have h7 : tryBraceVar ctx ['$', '\x7b', 'v', 'a', 'r', '\x7d'] =
      some ((ctxGet ctx "var").data, [], ctx) := rfl
  rw [h] at h7
  have h7' : tryBraceVar ctx ('$' :: ['\x7b', 'v', 'a', 'r', '\x7d']) =
      some ([], [], ctx) := h7
  have h7l : liftPass tryBraceVar ctx ('$' :: ['\x7b', 'v', 'a', 'r', '\x7d']) =
      PassOut.matched [] [] ctx := by
    unfold liftPass
    rw [h7']
  unfold expandLE
  rw [if_neg (by decide)]
  rw [runPassE_no_match trySufLongE _ ctx hB1]
  dsimp only [evalBind]
  rw [runPassE_no_match trySufShortE _ ctx hB2]
  dsimp only [evalBind]
  rw [runPassE_no_match tryPreLongE _ ctx hB3]
  dsimp only [evalBind]
  rw [runPassE_no_match tryPreShortE _ ctx hB4]
  dsimp only [evalBind]
  rw [runPassE_no_match (liftPass tryDefaultVal) _ ctx hB5]
  dsimp only [evalBind]
  rw [runPassE_no_match (liftPass tryAssignDefault) _ ctx hB6]
  dsimp only [evalBind]
  rw [runPassE_head_match_all (liftPass tryBraceVar) ctx ctx '$'
    ['\x7b', 'v', 'a', 'r', '\x7d'] [] h7l]
  rfl

theorem expandLE_default_val {ctx : BashCtx} (h : ctxGet ctx "var" = "") :
    expandLE ctx ['$', '\x7b', 'v', 'a', 'r', ':', '-', 'd', '\x7d'] =
      EvalOut.done (['d'], ctx) := by
  have hC1 : ∀ (c : BashCtx) (n : Nat),
      trySufLongE c ((['$', '\x7b', 'v', 'a', 'r', ':', '-', 'd', '\x7d'] : List Char).drop n)
        = PassOut.noMatch := by
    intro c n
    rcases Nat.lt_or_ge n 9 with hn | hn
    · interval_cases n <;> rfl
    · exact tryME_drop_long (fun _ => rfl) _ c n (by simpa using hn)
  have hC2 : ∀ (c : BashCtx) (n : Nat),
      trySufShortE c ((['$', '\x7b', 'v', 'a', 'r', ':', '-', 'd', '\x7d'] : List Char).drop n)
        = PassOut.noMatch := by
    intro c n
    rcases Nat.lt_or_ge n 9 with hn | hn
    · interval_cases n <;> rfl
    · exact tryME_drop_long (fun _ => rfl) _ c n (by simpa using hn)
  have hC3 : ∀ (c : BashCtx) (n : Nat),
      tryPreLongE c ((['$', '\x7b', 'v', 'a', 'r', ':', '-', 'd', '\x7d'] : List Char).drop n)
        = PassOut.noMatch := by
    intro c n
    rcases Nat.lt_or_ge n 9 with hn | hn
    · interval_cases n <;> rfl
    · exact tryME_drop_long (fun _ => rfl) _ c n (by simpa using hn)
  have hC4 : ∀ (c : BashCtx) (n : Nat),
      tryPreShortE c ((['$', '\x7b', 'v', 'a', 'r', ':', '-', 'd', '\x7d'] : List Char).drop n)
        = PassOut.noMatch := by
    intro c n
    rcases Nat.lt_or_ge n 9 with hn | hn
    · interval_cases n <;> rfl
    · exact tryME_drop_long (fun _ => rfl) _ c n (by simpa using hn)
  have hD6 : ∀ (c : BashCtx) (n : Nat),
      liftPass tryAssignDefault c ((['d'] : List Char).drop n) = PassOut.noMatch := by
    intro c n
    rcases Nat.lt_or_ge n 1 with hn | hn
    · interval_cases n
      rfl
    · exact tryME_drop_long (fun _ => rfl) _ c n (by simpa using hn)
  have hD7 : ∀ (c : BashCtx) (n : Nat),
      liftPass tryBraceVar c ((['d'] : List Char).drop n) = PassOut.noMatch := by
    intro c n
    rcases Nat.lt_or_ge n 1 with hn | hn
    · interval_cases n
      rfl
    · exact tryME_drop_long (fun _ => rfl) _ c n (by simpa using hn)
  have hD8 : ∀ (c : BashCtx) (n : Nat),
      liftPass tryDollarVar c ((['d'] : List Char).drop n) = PassOut.noMatch := by
    intro c n
    rcases Nat.lt_or_ge n 1 with hn | hn
    · interval_cases n
      rfl
    · exact tryME_drop_long (fun _ => rfl) _ c n (by simpa using hn)
  have h5 : tryDefaultVal ctx ['$', '\x7b', 'v', 'a', 'r', ':', '-', 'd', '\x7d'] =
      some ((if ctxGet ctx "var" = "" then ['d'] else (ctxGet ctx "var").data), [], ctx) :=
    rfl
  rw [h, if_pos rfl] at h5
  have h5' : tryDefaultVal ctx
      ('$' :: ['\x7b', 'v', 'a', 'r', ':', '-', 'd', '\x7d']) =
      some (['d'], [], ctx) := h5
  have h5l : liftPass tryDefaultVal ctx
      ('$' :: ['\x7b', 'v', 'a', 'r', ':', '-', 'd', '\x7d']) =
      PassOut.matched ['d'] [] ctx := by
    unfold liftPass
    rw [h5']
  unfold expandLE
  rw [if_neg (by decide)]
  rw [runPassE_no_match trySufLongE _ ctx hC1]
  dsimp only [evalBind]
  rw [runPassE_no_match trySufShortE _ ctx hC2]
  dsimp only [evalBind]
  rw [runPassE_no_match tryPreLongE _ ctx hC3]
  dsimp only [evalBind]
  rw [runPassE_no_match tryPreShortE _ ctx hC4]
  dsimp only [evalBind]
  rw [runPassE_head_match_all (liftPass tryDefaultVal) ctx ctx '$'
    ['\x7b', 'v', 'a', 'r', ':', '-', 'd', '\x7d'] ['d'] h5l]
  dsimp only [evalBind]
  rw [runPassE_no_match (liftPass tryAssignDefault) _ ctx hD6]
  dsimp only [evalBind]
  rw [runPassE_no_match (liftPass tryBraceVar) _ ctx hD7]
  dsimp only [evalBind]
  rw [runPassE_no_match (liftPass tryDollarVar) _ ctx hD8]

theorem expandLE_assign_default {ctx : BashCtx} (h : ctxGet ctx "var" = "") :
    expandLE ctx ['$', '\x7b', 'v', 'a', 'r', ':', '=', 'd', '\x7d'] =
      EvalOut.done (['d'], ctxSet ctx "var" "d") := by
  have hC1 : ∀ (c : BashCtx) (n : Nat),
      trySufLongE c ((['$', '\x7b', 'v', 'a', 'r', ':', '=', 'd', '\x7d'] : List Char).drop n)
        = PassOut.noMatch := by
    intro c n
    rcases Nat.lt_or_ge n 9 with hn | hn
    · interval_cases n <;> rfl
    · exact tryME_drop_long (fun _ => rfl) _ c n (by simpa using hn)
  have hC2 : ∀ (c : BashCtx) (n : Nat),
      trySufShortE c ((['$', '\x7b', 'v', 'a', 'r', ':', '=', 'd', '\x7d'] : List Char).drop n)
        = PassOut.noMatch := by
    intro c n
    rcases Nat.lt_or_ge n 9 with hn | hn
    · interval_cases n <;> rfl
    · exact tryME_drop_long (fun _ => rfl) _ c n (by simpa using hn)
  have hC3 : ∀ (c : BashCtx) (n : Nat),
      tryPreLongE c ((['$', '\x7b', 'v', 'a', 'r', ':', '=', 'd', '\x7d'] : List Char).drop n)
        = PassOut.noMatch := by
    intro c n
    rcases Nat.lt_or_ge n 9 with hn | hn
    · interval_cases n <;> rfl
    · exact tryME_drop_long (fun _ => rfl) _ c n (by simpa using hn)
  have hC4 : ∀ (c : BashCtx) (n : Nat),
      tryPreShortE c ((['$', '\x7b', 'v', 'a', 'r', ':', '=', 'd', '\x7d'] : List Char).drop n)
        = PassOut.noMatch := by
    intro c n
    rcases Nat.lt_or_ge n 9 with hn | hn
    · interval_cases n <;> rfl
    · exact tryME_drop_long (fun _ => rfl) _ c n (by simpa using hn)
  have hC5 : ∀ (c : BashCtx) (n : Nat),
      liftPass tryDefaultVal c
        ((['$', '\x7b', 'v', 'a', 'r', ':', '=', 'd', '\x7d'] : List Char).drop n)
        = PassOut.noMatch := by
    intro c n
    rcases Nat.lt_or_ge n 9 with hn | hn
    · interval_cases n <;> rfl
    · exact tryME_drop_long (fun _ => rfl) _ c n (by simpa using hn)
  have hD7 : ∀ (c : BashCtx) (n : Nat),
      liftPass tryBraceVar c ((['d'] : List Char).drop n) = PassOut.noMatch := by
    intro c n
    rcases Nat.lt_or_ge n 1 with hn | hn
    · interval_cases n
      rfl
    · exact tryME_drop_long (fun _ => rfl) _ c n (by simpa using hn)
  have hD8 : ∀ (c : BashCtx) (n : Nat),
      liftPass tryDollarVar c ((['d'] : List Char).drop n) = PassOut.noMatch := by
    intro c n
    rcases Nat.lt_or_ge n 1 with hn | hn
    · interval_cases n
      rfl
    · exact tryME_drop_long (fun _ => rfl) _ c n (by simpa using hn)
  have h6 : tryAssignDefault ctx ['$', '\x7b', 'v', 'a', 'r', ':', '=', 'd', '\x7d'] =
      some (if ctxGet ctx "var" = "" then (['d'], [], ctxSet ctx "var" ⟨['d']⟩)
            else ((ctxGet ctx "var").data, [], ctx)) := rfl
  rw [h, if_pos rfl] at h6
  have h6' : tryAssignDefault ctx
      ('$' :: ['\x7b', 'v', 'a', 'r', ':', '=', 'd', '\x7d']) =
      some (['d'], [], ctxSet ctx "var" "d") := h6
  have h6l : liftPass tryAssignDefault ctx
      ('$' :: ['\x7b', 'v', 'a', 'r', ':', '=', 'd', '\x7d']) =
      PassOut.matched ['d'] [] (ctxSet ctx "var" "d") := by
    unfold liftPass
    rw [h6']
  unfold expandLE
  rw [if_neg (by decide)]
  rw [runPassE_no_match trySufLongE _ ctx hC1]
  dsimp only [evalBind]
  rw [runPassE_no_match trySufShortE _ ctx hC2]
  dsimp only [evalBind]
  rw [runPassE_no_match tryPreLongE _ ctx hC3]
  dsimp only [evalBind]
  rw [runPassE_no_match tryPreShortE _ ctx hC4]
  dsimp only [evalBind]
  rw [runPassE_no_match (liftPass tryDefaultVal) _ ctx hC5]
  dsimp only [evalBind]
  rw [runPassE_head_match_all (liftPass tryAssignDefault) ctx (ctxSet ctx "var" "d") '$'
    ['\x7b', 'v', 'a', 'r', ':', '=', 'd', '\x7d'] ['d'] h6l]
  dsimp only [evalBind]
  rw [runPassE_no_match (liftPass tryBraceVar) _ (ctxSet ctx "var" "d") hD7]
  dsimp only [evalBind]
  rw [runPassE_no_match (liftPass tryDollarVar) _ (ctxSet ctx "var" "d") hD8]

/-- C8, counterexample to the frozen claim: expansion can error.  The
strip passes hand the raw pattern unescaped to a dynamically compiled
regex, so with v bound to a nonempty value, expanding the percent strip
form whose pattern is a lone open parenthesis makes the built regex
invalid and the expansion raises instead of returning. -/
theorem c8_counterexample :
    expandE (ctxSet ctxEmpty "v" "x") "$\x7bv%(\x7d" = EvalOut.raised := by
  decide

/-- C8 (amended): variable expansion runs no external command and is a
function of the threaded context, but it is not error-free.  A
reference to an unset variable — bare or braced — expands to the empty
string; the colon-dash form substitutes its default when the variable
is unset or empty without touching the context; the colon-equals form
substitutes the default and also assigns it into the context when the
variable is unset or empty; yet the strip forms interpolate their raw
pattern unescaped into a dynamically compiled regex, so a pattern that
is not a valid regex — here a lone open parenthesis against a nonempty
value — makes expansion raise rather than return a value. -/
theorem c8_amended_expansion_contract (ctx : BashCtx) :
    (dictGet ctx.vars "var" = none →
      expandE ctx "$var" = EvalOut.done ("", ctx) ∧
      expandE ctx "$\x7bvar\x7d" = EvalOut.done ("", ctx)) ∧
    (ctxGet ctx "var" = "" →
      expandE ctx "$\x7bvar:-d\x7d" = EvalOut.done ("d", ctx)) ∧
    (ctxGet ctx "var" = "" →
      expandE ctx "$\x7bvar:=d\x7d" = EvalOut.done ("d", ctxSet ctx "var" "d")) ∧
    expandE (ctxSet ctxEmpty "v" "x") "$\x7bv%(\x7d" = EvalOut.raised := by
  refine ⟨?_, ?_, ?_, by decide⟩
  · intro h
    have hget := ctxGet_of_unset h
    constructor
    · unfold expandE
      rw [show ("$var" : String).data = ['$', 'v', 'a', 'r'] from rfl,
        expandLE_dollar_var hget]
      rfl
    · unfold expandE
      rw [show ("$\x7bvar\x7d" : String).data = ['$', '\x7b', 'v', 'a', 'r', '\x7d'] from rfl,
        expandLE_brace_var hget]
      rfl
  · intro h
    unfold expandE
    rw [show ("$\x7bvar:-d\x7d" : String).data =
        ['$', '\x7b', 'v', 'a', 'r', ':', '-', 'd', '\x7d'] from rfl,
      expandLE_default_val h]
    rfl
  · intro h
    unfold expandE
    rw [show ("$\x7bvar:=d\x7d" : String).data =
        ['$', '\x7b', 'v', 'a', 'r', ':', '=', 'd', '\x7d'] from rfl,
      expandLE_assign_default h]
    rfl

/-- C8, witness: on the empty context the variable is unset, so the
bare and braced references expand without raising to the empty string,
the colon-dash form gives the default without mutation, and the
colon-equals form gives the default and records it. -/
theorem c8_amended_witness :
    expandE ctxEmpty "$var" = EvalOut.done ("", ctxEmpty) ∧
    expandE ctxEmpty "$\x7bvar\x7d" = EvalOut.done ("", ctxEmpty) ∧
    expandE ctxEmpty "$\x7bvar:-d\x7d" = EvalOut.done ("d", ctxEmpty) ∧
    expandE ctxEmpty "$\x7bvar:=d\x7d" = EvalOut.done ("d", ctxSet ctxEmpty "var" "d") := by
  have h := c8_amended_expansion_contract ctxEmpty
  have h1 := h.1 (by decide)
  exact ⟨h1.1, h1.2, h.2.1 (by decide), h.2.2.1 (by decide)⟩

/-! ## Claim C5 -/

/-- C5: a recipe assigning the release from the shell arithmetic form
over an underscore variable defined elsewhere in the file parses to the
evaluated value (three plus one gives four); and whenever the effective
release string is neither a bare digit string nor an arithmetic form
that survives sanitizing and evaluation, the release is zero. -/
theorem c5_pkgrel_arithmetic :
    (parseContent "pkgname=foo\npkgrel=$(( _rel + 1 ))\n_rel=3\n" "").map
        (fun p => p.release) = some 4 ∧
    (∀ (st : ParseVarsState) (content : String),
      isDigits (pkgrelStr st content) = false →
      arithMatch (pkgrelStr st content) = none →
      parsePkgrel st content = 0) ∧
    (∀ (st : ParseVarsState) (content e : String),
      isDigits (pkgrelStr st content) = false →
      arithMatch (pkgrelStr st content) = some e →
      (filterArithChars (substArithVars (arithVarTable content) e.data.length e.data) = [] ∨
        evalPy (filterArithChars
          (substArithVars (arithVarTable content) e.data.length e.data)) = none) →
      parsePkgrel st content = 0) := by
  refine ⟨by decide, ?_, ?_⟩
  · intro st content hdig hmatch
    unfold parsePkgrel
    by_cases hs : pkgrelStr st content = ""
    · rw [if_pos hs]
    · rw [if_neg hs, if_neg (by rw [hdig]; exact Bool.false_ne_true), hmatch]
  · intro st content e hdig hmatch hfail
    unfold parsePkgrel
    by_cases hs : pkgrelStr st content = ""
    · rw [if_pos hs]
    · rw [if_neg hs, if_neg (by rw [hdig]; exact Bool.false_ne_true), hmatch]
      show evalShellArithmetic content e = 0
      unfold evalShellArithmetic
      dsimp only
      rcases hfail with hfail | hfail
      · rw [if_pos hfail]
      · by_cases hemp : filterArithChars
            (substArithVars (arithVarTable content) e.data.length e.data) = []
        · rw [if_pos hemp]
        · rw [if_neg hemp, hfail]

/-- C5, witness: a release value that is neither digits nor an
arithmetic form yields release zero. -/
theorem c5_witness :
    parsePkgrel (parseVariables "pkgname=x\npkgrel=abc\n") "pkgname=x\npkgrel=abc\n" = 0 :=
  c5_pkgrel_arithmetic.2.1 (parseVariables "pkgname=x\npkgrel=abc\n")
    "pkgname=x\npkgrel=abc\n" (by decide) (by decide)

/-! ## Claim C6 -/

theorem mem_takeWhileL {p : Char → Bool} {c : Char} :
    ∀ {s : List Char}, c ∈ takeWhileL p s → p c = true
  | [], h => absurd h (List.not_mem_nil _)
  | d :: ds, h => by
    unfold takeWhileL at h
    by_cases hd : p d
    · rw [if_pos hd] at h
      rcases List.mem_cons.mp h with rfl | h1
      · exact hd
      · exact mem_takeWhileL h1
    · rw [if_neg hd] at h
      cases h

theorem mem_dropWhileL {p : Char → Bool} {c : Char} :
    ∀ {s : List Char}, c ∈ dropWhileL p s → c ∈ s
  | [], h => h
  | d :: ds, h => by
    unfold dropWhileL at h
    by_cases hd : p d
    · rw [if_pos hd] at h
      exact List.mem_cons_of_mem _ (mem_dropWhileL h)
    · rw [if_neg hd] at h
      exact h

theorem mem_pyStripL {c : Char} {s : List Char} (h : c ∈ pyStripL s) : c ∈ s := by
  unfold pyStripL at h
  rw [List.mem_reverse] at h
  have h1 := mem_dropWhileL h
  rw [List.mem_reverse] at h1
  exact mem_dropWhileL h1

theorem mem_takeBeforeSub {pat : List Char} {c : Char} :
    ∀ {s : List Char}, c ∈ takeBeforeSub pat s → c ∈ s
  | [], h => h
  | d :: ds, h => by
    unfold takeBeforeSub at h
    by_cases hd : pat.isPrefixOf (d :: ds)
    · rw [if_pos hd] at h
      cases h
    · rw [if_neg hd] at h
      rcases List.mem_cons.mp h with rfl | h1
      · exact List.mem_cons_self _ _
      · exact List.mem_cons_of_mem _ (mem_takeBeforeSub h1)

theorem mem_truncAtColons {c : Char} {s : List Char} (h : c ∈ truncAtColons s) :
    c ∈ s := by
  unfold truncAtColons at h
  split at h
  · exact mem_takeBeforeSub h
  · exact h

theorem mem_removeParensAux {c : Char} :
    ∀ (fuel : Nat) (s : List Char), c ∈ removeParensAux fuel s → c ∈ s
  | 0, _, h => h
  | _ + 1, [], h => h
  | fuel + 1, d :: rest, h => by
    rw [removeParensAux] at h
    by_cases hp : d = '(' ∧ rest.contains ')'
    · rw [if_pos hp] at h
      have h1 := mem_removeParensAux fuel _ h
      have h2 := List.drop_subset 1 (dropWhileL (fun c => c ≠ ')') rest) h1
      exact List.mem_cons_of_mem _ (mem_dropWhileL h2)
    · rw [if_neg hp] at h
      rcases List.mem_cons.mp h with rfl | h1
      · exact List.mem_cons_self _ _
      · exact List.mem_cons_of_mem _ (mem_removeParensAux fuel rest h1)

/-- C6: the concrete dependency line with version constraints and a
conflict marker parses to exactly the two cleaned names; tokens opening
with an exclamation mark are always dropped; and every surviving
cleaned token is nonempty, opens with an alphanumeric character and
carries no version-comparison operator character. -/
theorem c6_depends_cleaning :
    (parseContent
        "pkgname=test-package\npkgver=1.0.0\npkgrel=0\ndepends=\"libfoo>=1.0 libbar<2.0 !conflicting\"\n"
        "").map (fun p => p.depends) = some ["libfoo", "libbar"] ∧
    cleanDepName "libfoo>=1.0" = some "libfoo" ∧
    cleanDepName "!conflicting" = none ∧
    cleanDepName "foo::bar" = some "foo" ∧
    cleanDepName "a(x)b" = some "ab" ∧
    cleanDepName "~weird" = none ∧
    cleanDepName "(x)" = none ∧
    (∀ t : String, t.data.head? = some '!' → cleanDepName t = none) ∧
    (∀ t d : String, cleanDepName t = some d →
      d ≠ "" ∧ (d.data.head?.map Char.isAlphanum) = some true ∧
      ∀ c ∈ d.data, c ≠ '>' ∧ c ≠ '<' ∧ c ≠ '=' ∧ c ≠ '~') := by
  refine ⟨by decide, by decide, by decide, by decide, by decide, by decide, by decide,
    ?_, ?_⟩
  · intro t h
    unfold cleanDepName
    rw [if_neg (by
      intro he
      rw [he] at h
      cases h)]
    rw [if_neg (by
      intro hmem
      simp only [List.mem_cons, List.not_mem_nil, or_false] at hmem
      rcases hmem with rfl | rfl | rfl | rfl | rfl | rfl | rfl <;> exact absurd h (by decide))]
    rw [if_pos h]
  · intro t d h
    unfold cleanDepName at h
    split at h
    · cases h
    · split at h
      · cases h
      · split at h
        · cases h
        · dsimp only at h
          split at h
          · cases h
          · split at h
            · cases h
            · rename_i h4 h5
              have hds := Option.some_inj.mp h
              subst hds
              refine ⟨?_, ?_, ?_⟩
              · intro he
                exact h4 (congrArg String.data he)
              · rw [Bool.not_eq_true, Bool.not_eq_false'] at h5
                show Option.map Char.isAlphanum (List.head? _) = some true
                revert h5
                cases hx : List.head? (pyStripL (removeParens _)) with
                | none => intro h5; cases h5
                | some c =>
                  intro h5
                  simp only [hx, Option.map_some', Option.getD_some] at h5 ⊢
                  rw [h5]
              · intro c hc
                have hc1 := mem_pyStripL hc
                have hc2 := mem_removeParensAux _ _ hc1
                have hc3 := mem_truncAtColons hc2
                have := mem_takeWhileL hc3
                simpa using this

/-- C6, witness: the universal clauses applied at concrete tokens — a
conflict-marked token is dropped, and the surviving token from a
versioned declaration is nonempty, alphanumeric-led and operator
free. -/
theorem c6_witness :
    cleanDepName "!x" = none ∧
    ("libfoo" ≠ "" ∧ (("libfoo" : String).data.head?.map Char.isAlphanum) = some true ∧
      ∀ c ∈ ("libfoo" : String).data, c ≠ '>' ∧ c ≠ '<' ∧ c ≠ '=' ∧ c ≠ '~') := by
  constructor
  · exact c6_depends_cleaning.2.2.2.2.2.2.2.1 "!x" (by decide)
  · exact c6_depends_cleaning.2.2.2.2.2.2.2.2 "libfoo>=1.0" "libfoo" (by decide)

/-! ## Claim C7 -/

/-- C7, counterexample: the token dollar-pkgname-open-paren is neither
exactly the dollar-pkgname marker nor an extension of it by a dash, so
under the claim it should be dropped; the code instead substitutes the
canonical name into it and keeps the cleaned result. -/
theorem c7_counterexample :
    (parseDepsString ctxEmpty "$pkgname(" "p").1 = ["p("] ∧
    "$pkgname(" ≠ "$pkgname" ∧
    (("$pkgname-" : String).data.isPrefixOf ("$pkgname(" : String).data) = false := by
  refine ⟨by decide, by decide, by decide⟩

/-- C7, amended: a token still containing a dollar after expansion is
dropped unless the owning package's canonical name is known and the
token contains the dollar-pkgname marker anywhere as a substring, in
which case every occurrence of the marker is replaced by the literal
name and the token is kept, subject to the normal cleaning. -/
theorem c7_amended_dollar_tokens (pk tok : String)
    (h : charIn '$' (pyStrip tok) = true) :
    ((pk = "" ∨ strContains (pyStrip tok) "$pkgname" = false) →
      processDepToken pk tok = none) ∧
    (pk ≠ "" → strContains (pyStrip tok) "$pkgname" = true →
      processDepToken pk tok = cleanDepName (replaceSub (pyStrip tok) "$pkgname" pk)) := by
  have hne : ¬pyStrip tok = "" := by
    intro he
    rw [he] at h
    cases h
  constructor
  · intro hcase
    unfold processDepToken
    rw [if_neg hne, if_pos h]
    rw [if_neg (by
      rintro ⟨hpk, hcon⟩
      rcases hcase with hcase | hcase
      · exact hpk hcase
      · rw [hcase] at hcon
        cases hcon)]
  · intro hpk hcon
    unfold processDepToken
    rw [if_neg hne, if_pos h, if_pos ⟨hpk, hcon⟩]

/-- C7, witness: with an unknown canonical name a dollar token is
dropped, and with a known name the containing token is substituted and
kept. -/
theorem c7_witness :
    processDepToken "" "$x" = none ∧
    processDepToken "p" "$pkgname(" = some "p(" := by
  constructor
  · exact (c7_amended_dollar_tokens "" "$x" (by decide)).1 (Or.inl rfl)
  · have h := (c7_amended_dollar_tokens "p" "$pkgname(" (by decide)).2
      (by decide) (by decide)
    rw [h]
    decide

end DepMap
